import Mathlib

/-!
# ListGithubDeployments controller

A shallow embedding of `controllers/listgithubdeployments_controller.go` and of
`api/v1alpha1/listgithubdeployments_types.go`, followed by the properties of the
pagination loop, the ordering step, the sanitizer, the filter construction and
the status conditions of `Reconcile`.

Conventions of the embedding.

* Go `int` values are `Int`. The only arithmetic of the controller is
  `len(result) + PerPage` and `Limit - len(result)`; on the first round
  `len(result) = 0`, and a further round is only reached with
  `0 < PerPage <= 100` and `len(result) < Limit`, so a wrap-around would need a
  slice of more than `2^63 - 101` elements.
* A function that updates a value through a pointer returns the updated value.
  Records are trees (they are decoded from JSON), so no two fields share storage.
* A run of `doReconcile` ends in an `Outcome`: it returned (with or without an
  error), it stopped on a run-time panic, or the model ran out of fuel.
-/

namespace Controllers

/-- The text of a Go `error`. -/
abbrev Error := String

/-! ## Reflected values -/

/-- The struct types the type switch of `simplifyObject` tells apart; every other
struct type is `other`, with its name. -/
inductive StructType where
  | PullRequest
  | User
  | Organization
  | Repository
  | other (name : String)
  deriving DecidableEq, Repr

mutual
/-- What `reflect.Value` shows of a record: the kinds `simplifyObject` switches on
(`Pointer`, `Struct`, `Slice`) and leaves for every other kind. `other none` is
the zero value of a kind that is not listed (a nil map, a nil interface, ...).
Values are those reached from a pointer, as at every call site of the source. -/
inductive Value where
  | bool (b : Bool)
  | int (i : Int)
  | string (s : String)
  | other (content : Option String)
  | nilPointer
  | pointer (elem : Value)
  | struct (t : StructType) (fields : Fields)
  | nilSlice
  | slice (elems : Values)
/-- The fields of a struct in declaration order, as `reflect.VisibleFields` lists
them for a struct type without anonymous members. -/
inductive Fields where
  | nil
  | cons (name : String) (v : Value) (rest : Fields)
/-- The elements of a slice. -/
inductive Values where
  | nil
  | cons (v : Value) (rest : Values)
end

deriving instance DecidableEq for Value, Fields, Values
deriving instance Repr for Value, Fields, Values

mutual
/-- Go `reflect.Value.IsZero`: false, 0, "", a nil pointer, a nil slice, and a
struct all of whose fields are zero. -/
def Value.IsZero : Value → Bool
  | .bool b => !b
  | .int i => i == 0
  | .string s => s == ""
  | .other c => c.isNone
  | .nilPointer => true
  | .pointer _ => false
  | .struct _ fs => fs.allZero
  | .nilSlice => true
  | .slice _ => false
/-- Every field is zero. -/
def Fields.allZero : Fields → Bool
  | .nil => true
  | .cons _ v rest => v.IsZero && rest.allZero
end

mutual
/-- The zero value of the type of `v`: what a field that a composite literal does
not mention is set to. -/
def Value.zeroOf : Value → Value
  | .bool _ => .bool false
  | .int _ => .int 0
  | .string _ => .string ""
  | .other _ => .other none
  | .nilPointer => .nilPointer
  | .pointer _ => .nilPointer
  | .struct t fs => .struct t fs.zeroOf
  | .nilSlice => .nilSlice
  | .slice _ => .nilSlice
/-- Every field set to the zero value of its type. -/
def Fields.zeroOf : Fields → Fields
  | .nil => .nil
  | .cons n v rest => .cons n v.zeroOf rest.zeroOf
end

/-- The value of the first field called `name`. -/
def Fields.get? (name : String) : Fields → Option Value
  | .nil => none
  | .cons n v rest => if n = name then some v else rest.get? name

/-- The field names, in order. -/
def Fields.names : Fields → List String
  | .nil => []
  | .cons n _ rest => n :: rest.names

/-- Build a field list from pairs. -/
def Fields.ofList : List (String × Value) → Fields
  | [] => .nil
  | (n, v) :: rest => .cons n v (Fields.ofList rest)

/-- Build slice elements from a list. -/
def Values.ofList : List Value → Values
  | [] => .nil
  | v :: rest => .cons v (Values.ofList rest)

/-- A struct assignment that keeps the fields `keep` names and gives every other
field the zero value of its type: a composite literal `T{A: x.A, ...}` stored
back into `*x`, or `x.F = nil` for a single pointer field `F`. -/
def Fields.assign (keep : String → Bool) : Fields → Fields
  | .nil => .nil
  | .cons n v rest =>
    .cons n (if keep n then v else v.zeroOf) (Fields.assign keep rest)

/-! ## The sanitizer -/

/-- The fields `github.User{ID: x.ID, Login: x.Login}` mentions. -/
def userKept (n : String) : Bool := n = "ID" || n = "Login"

/-- The fields `github.Organization{ID: x.ID, Login: x.Login}` mentions. -/
def organisationKept (n : String) : Bool := n = "ID" || n = "Login"

/-- The fields the composite literal of `simplifyRepository` mentions. -/
def repositoryKept (n : String) : Bool :=
  n = "ID" || n = "Owner" || n = "Name" || n = "FullName"

/-- The fields `x.Links = nil` leaves alone. -/
def pullRequestKept (n : String) : Bool := !(n = "Links")

/-- Every field is left alone. -/
def allKept (_ : String) : Bool := true

/-- Go `simplifyUser(x *github.User)`: `x` is nil (`none`) or points at a struct
with the given fields. -/
def simplifyUser : Option Fields → Except Error (Option Fields)
  | none => .ok none
  | some fs => .ok (some (fs.assign userKept))

/-- Go `simplifyOrganisation(x *github.Organization)`. -/
def simplifyOrganisation : Option Fields → Except Error (Option Fields)
  | none => .ok none
  | some fs => .ok (some (fs.assign organisationKept))

mutual
/-- Go `simplifyObject(v reflect.Value)`. The result is the value `v` holds after
the call. A nil pointer has the invalid `Elem()`, whose kind matches no case.
The struct cases call `simplifyPullRequest`, `simplifyUser`,
`simplifyOrganisation`, `simplifyRepository` and `simplifyObjectGeneric`; the
three that go on into the fields do so through `visitFields`
(see `simplifyObject_pullRequest`, `simplifyObject_repository`,
`simplifyObject_generic`). -/
def simplifyObject : Value → Except Error Value
  | .pointer e =>
    match simplifyObject e with
    | .error err => .error err
    | .ok e' => .ok (.pointer e')
  | .struct .PullRequest fs =>
    match visitFields pullRequestKept fs with
    | .error err => .error err
    | .ok fs' => .ok (.struct .PullRequest fs')
  | .struct .User fs =>
    match simplifyUser (some fs) with
    | .error err => .error err
    | .ok none => .ok (.struct .User fs)
    | .ok (some fs') => .ok (.struct .User fs')
  | .struct .Organization fs =>
    match simplifyOrganisation (some fs) with
    | .error err => .error err
    | .ok none => .ok (.struct .Organization fs)
    | .ok (some fs') => .ok (.struct .Organization fs')
  | .struct .Repository fs =>
    match visitFields repositoryKept fs with
    | .error err => .error err
    | .ok fs' => .ok (.struct .Repository fs')
  | .struct (.other name) fs =>
    match visitFields allKept fs with
    | .error err => .error err
    | .ok fs' => .ok (.struct (.other name) fs')
  | .slice es =>
    match visitElems es with
    | .error err => .error err
    | .ok es' => .ok (.slice es')
  | .bool b => .ok (.bool b)
  | .int i => .ok (.int i)
  | .string s => .ok (.string s)
  | .other c => .ok (.other c)
  | .nilPointer => .ok .nilPointer
  | .nilSlice => .ok .nilSlice
/-- The field loop of `simplifyObjectGeneric`, run on a struct that was first
assigned `Fields.assign keep`: a field the assignment set to zero is skipped by
the `IsZero` test, a field it kept is skipped when zero and passed to
`simplifyObject` otherwise (`visitFields_eq_generic_assign`). -/
def visitFields (keep : String → Bool) : Fields → Except Error Fields
  | .nil => .ok .nil
  | .cons n v rest =>
    if keep n then
      if v.IsZero then
        match visitFields keep rest with
        | .error err => .error err
        | .ok rest' => .ok (.cons n v rest')
      else
        match simplifyObject v with
        | .error err => .error err
        | .ok v' =>
          match visitFields keep rest with
          | .error err => .error err
          | .ok rest' => .ok (.cons n v' rest')
    else
      match visitFields keep rest with
      | .error err => .error err
      | .ok rest' => .ok (.cons n v.zeroOf rest')
/-- The loop of the `reflect.Slice` case: `simplifyObject` on every element, from
index 0 on, stopping at the first error. -/
def visitElems : Values → Except Error Values
  | .nil => .ok .nil
  | .cons v rest =>
    match simplifyObject v with
    | .error err => .error err
    | .ok v' =>
      match visitElems rest with
      | .error err => .error err
      | .ok rest' => .ok (.cons v' rest')
end

/-- Go `simplifyObjectGeneric(v)`, on the fields of the struct `v` points at:
every field that is not zero goes through `simplifyObject`. -/
def simplifyObjectGeneric (fs : Fields) : Except Error Fields :=
  visitFields allKept fs

/-- Go `simplifyPullRequest(x)`: `x.Links = nil`, then `simplifyObjectGeneric`. -/
def simplifyPullRequest (fs : Fields) : Except Error Fields :=
  simplifyObjectGeneric (fs.assign pullRequestKept)

/-- Go `simplifyRepository(x *github.Repository)`: nothing for a nil `x`;
otherwise `*x = github.Repository{ID, Owner, Name, FullName}`, then
`simplifyObjectGeneric`. -/
def simplifyRepository : Option Fields → Except Error (Option Fields)
  | none => .ok none
  | some fs =>
    match simplifyObjectGeneric (fs.assign repositoryKept) with
    | .error err => .error err
    | .ok fs' => .ok (some fs')

/-! ## The declared object -/

/-- Reference to a secret holding the token.
Modelled from the spec: the type of `TokenRef` is declared outside the two source
files; the spec calls it an optional pointer to a secret. -/
structure SecretRef where
  SecretName : String
  Key : String
  deriving DecidableEq, Repr

/-- Go `ListGithubDeploymentsSpec`. `Owner`, `Repo` and `TokenRef` come from the
inlined `GithubProject`; `Interval` is a duration in nanoseconds; the optional
filters are pointers, nil being `none`. -/
structure ListGithubDeploymentsSpec where
  Interval : Int
  Owner : String
  Repo : String
  TokenRef : Option SecretRef
  Ref : Option String
  Sha : Option String
  Task : Option String
  Environment : Option String
  State : String
  Limit : Int
  deriving DecidableEq, Repr

/-- Go `metav1.Condition`, with the fields the controller sets (`Type_` is Go
`Type`). -/
structure Condition where
  Type_ : String
  Status : String
  ObservedGeneration : Int
  Reason : String
  Message : String
  deriving DecidableEq, Repr

/-- Go `runtime.RawExtension`: the JSON text of one record. -/
structure RawExtension where
  Raw : String
  deriving DecidableEq, Repr

/-- Go `ListGithubDeploymentsStatus`. -/
structure ListGithubDeploymentsStatus where
  Conditions : List Condition
  Deployments : List RawExtension
  deriving DecidableEq, Repr

/-- Go `ListGithubDeployments`, with the metadata the controller reads. -/
structure ListGithubDeployments where
  Namespace : String
  Generation : Int
  Spec : ListGithubDeploymentsSpec
  Status : ListGithubDeploymentsStatus
  deriving DecidableEq, Repr

/-! ## The remote listing -/

/-- Go `github.DeploymentsListOptions`, with the embedded `ListOptions`. -/
structure DeploymentsListOptions where
  SHA : String
  Ref : String
  Task : String
  Environment : String
  Page : Int
  PerPage : Int
  deriving DecidableEq, Repr

/-- One call of `gh.Repositories.ListDeployments` as the loop saw it: what was
asked and what came back. -/
structure Call where
  opts : DeploymentsListOptions
  reply : Except Error (List Value)

/-- What the controller calls but does not define. `σ` is the state of the
remote side, so that an answer may depend on everything asked before.

* `GetSecretToken namespace ref` is the helper of the same name.
* `ListDeployments token s owner repo opts` is
  `gh.Repositories.ListDeployments` on the client built from `token`
  (anonymous for the empty token): the page or the error, and the next state.
* `sortSlice less xs` is Go `sort.Slice`.
* `Marshal` is Go `json.Marshal` on a record. -/
structure World (σ : Type) where
  GetSecretToken : String → SecretRef → Except Error String
  ListDeployments : String → σ → String → String → DeploymentsListOptions →
    Except Error (List Value) × σ
  sortSlice : (Value → Value → Bool) → List Value → List Value
  Marshal : Value → Except Error RawExtension

/-! ## The pagination loop -/

/-- How the `for true` loop of `doReconcile` ended. -/
inductive LoopResult (σ : Type) where
  | done (result : List Value) (s : σ) (calls : List Call)
  | failed (err : Error) (s : σ) (calls : List Call)
  | outOfFuel (s : σ) (calls : List Call)

/-- The calls made by the loop. -/
def LoopResult.calls {σ : Type} : LoopResult σ → List Call
  | .done _ _ calls => calls
  | .failed _ _ calls => calls
  | .outOfFuel _ calls => calls

/-- The first branch of the loop body: the page size is cut down when a full page
would take the result past the limit. -/
def shrink (limit : Int) (result : List Value) (opts : DeploymentsListOptions) :
    DeploymentsListOptions :=
  if (result.length : Int) + opts.PerPage > limit then
    { opts with PerPage := limit - (result.length : Int) }
  else opts

/-- The `for true` loop of `doReconcile` (lines 121-136), one round per unit of
fuel. `calls` holds the calls made so far, oldest first. -/
def paginationLoop {σ : Type} (list : σ → DeploymentsListOptions → Except Error (List Value) × σ)
    (limit : Int) :
    Nat → σ → DeploymentsListOptions → List Value → List Call → LoopResult σ
  | 0, s, _, _, calls => .outOfFuel s calls
  | fuel + 1, s, listOpts, result, calls =>
    let listOpts := shrink limit result listOpts
    match list s listOpts with
    | (.error err, s') => .failed err s' (calls ++ [⟨listOpts, .error err⟩])
    | (.ok page, s') =>
      let result := result ++ page
      if (page.length : Int) ≠ listOpts.PerPage ∨ (result.length : Int) ≥ limit then
        .done result s' (calls ++ [⟨listOpts, .ok page⟩])
      else
        paginationLoop list limit fuel s' { listOpts with Page := listOpts.Page + 1 } result
          (calls ++ [⟨listOpts, .ok page⟩])

/-- Rounds that are always enough for the loop to end: every round but the last
adds at least one record and stays below the limit. -/
def loopFuel (limit : Int) : Nat := limit.toNat + 1

/-! ## The ordering step -/

/-- Go `*pr.ID` for a record `pr : *github.Deployment`; `none` where Go panics
(a nil record or a nil `ID`). -/
def deploymentID : Value → Option Int
  | .pointer (.struct _ fs) =>
    match fs.get? "ID" with
    | some (.pointer (.int i)) => some i
    | _ => none
  | _ => none

/-- The comparison handed to `sort.Slice`: `*result[i].ID < *result[j].ID`. -/
def lessByID (a b : Value) : Bool :=
  match deploymentID a, deploymentID b with
  | some x, some y => decide (x < y)
  | _, _ => false

/-- The `sort.Slice` call of `doReconcile` (lines 138-140). A slice of fewer than
two records is never compared; in a longer one every record is compared at
least once, and the comparison panics on an absent id (`none`). -/
def orderStep (sortSlice : (Value → Value → Bool) → List Value → List Value)
    (result : List Value) : Option (List Value) :=
  if result.length < 2 then some result
  else if result.all (fun r => (deploymentID r).isSome) then some (sortSlice lessByID result)
  else none

/-- What Go documents of `sort.Slice` for the comparison `less`: the slice is
rearranged, and afterwards no element is less than one before it. Nothing is
said of elements that compare equal. -/
def SortsBy (sortSlice : (Value → Value → Bool) → List Value → List Value)
    (less : Value → Value → Bool) : Prop :=
  ∀ xs, (sortSlice less xs).Perm xs ∧
    (sortSlice less xs).Pairwise (fun a b => less b a = false)

/-- Insertion of `x` into a sorted list: `x` goes in front of the first element
it is less than, so behind every element it ties with. -/
def insertSorted (less : Value → Value → Bool) (x : Value) : List Value → List Value
  | [] => [x]
  | y :: ys => if less x y then x :: y :: ys else y :: insertSorted less x ys

/-- An insertion sort from the back of the slice, one `sort.Slice` that meets
`SortsBy`. Of two elements that tie, the later one comes out first. -/
def insertionSort (less : Value → Value → Bool) : List Value → List Value
  | [] => []
  | x :: xs => insertSorted less x (insertionSort less xs)

/-! ## doReconcile -/

/-- How a run of `doReconcile` ended: it returned `err` (nil is `none`) with the
object as left behind, it panicked, or the model ran out of fuel. `calls` are
the remote calls made, `s` the state of the remote side afterwards. -/
inductive Outcome (σ : Type) where
  | returned (err : Option Error) (obj : ListGithubDeployments) (s : σ) (calls : List Call)
  | panicked (s : σ) (calls : List Call)
  | outOfFuel (s : σ) (calls : List Call)

/-- The loop over the sorted records (lines 142-156): sanitize, marshal,
append. -/
def buildDeployments (marshal : Value → Except Error RawExtension) :
    List Value → List RawExtension → Except Error (List RawExtension)
  | [], newDeployments => .ok newDeployments
  | pr :: rest, newDeployments =>
    match simplifyObject pr with
    | .error err => .error err
    | .ok pr' =>
      match marshal pr' with
      | .error err => .error err
      | .ok j => buildDeployments marshal rest (newDeployments ++ [j])

/-- The part of `doReconcile` after the token is known (lines 112-160). The four
filters are dereferenced in the order of the source; a nil one panics. -/
def reconcileWithToken {σ : Type} (w : World σ) (s : σ) (obj : ListGithubDeployments)
    (token : String) : Outcome σ :=
  match obj.Spec.Environment, obj.Spec.Sha, obj.Spec.Ref, obj.Spec.Task with
  | some environment, some sha, some ref, some task =>
    let listOpts : DeploymentsListOptions := ⟨sha, ref, task, environment, 1, 100⟩
    match paginationLoop (fun s o => w.ListDeployments token s obj.Spec.Owner obj.Spec.Repo o)
        obj.Spec.Limit (loopFuel obj.Spec.Limit) s listOpts [] [] with
    | .outOfFuel s' calls => .outOfFuel s' calls
    | .failed err s' calls => .returned (some err) obj s' calls
    | .done result s' calls =>
      match orderStep w.sortSlice result with
      | none => .panicked s' calls
      | some sorted =>
        match buildDeployments w.Marshal sorted [] with
        | .error err => .returned (some err) obj s' calls
        | .ok newDeployments =>
          .returned none { obj with Status := { obj.Status with Deployments := newDeployments } }
            s' calls
  | _, _, _, _ => .panicked s []

/-- Go `doReconcile(ctx, obj)`. -/
def doReconcile {σ : Type} (w : World σ) (s : σ) (obj : ListGithubDeployments) : Outcome σ :=
  match obj.Spec.TokenRef with
  | none => reconcileWithToken w s obj ""
  | some ref =>
    match w.GetSecretToken obj.Namespace ref with
    | .error err => .returned (some err) obj s []
    | .ok token => reconcileWithToken w s obj token

/-! ## Vocabulary of the properties and sample inputs -/

/-- Page and page size of a call. -/
def Call.pageAndSize (c : Call) : Int × Int := (c.opts.Page, c.opts.PerPage)

/-- A remote that never hands back more records than the page size asked for. -/
def RespectsPageSize {σ : Type}
    (list : σ → DeploymentsListOptions → Except Error (List Value) × σ) : Prop :=
  ∀ s o page, 0 ≤ o.PerPage → (list s o).1 = .ok page → (page.length : Int) ≤ o.PerPage

/-- A remote that always hands back exactly as many records as asked for. -/
def ReturnsFullPages {σ : Type}
    (list : σ → DeploymentsListOptions → Except Error (List Value) × σ) : Prop :=
  ∀ s o, 0 ≤ o.PerPage → ∃ page, (list s o).1 = .ok page ∧ (page.length : Int) = o.PerPage

/-- The reply of a call is a page. -/
def Call.succeeded (c : Call) : Prop := ∃ page, c.reply = .ok page

/-- Number of calls the spec expects for limit `L`: ceil(L/100). -/
def expectedCallCount (L : Int) : Nat := ((L + 99) / 100).toNat

/-- Size of the last page the spec expects: `L mod 100`, or 100 when `L` is a
multiple of 100. -/
def expectedLastSize (L : Int) : Int := if L % 100 = 0 then 100 else L % 100

/-- Page and size the spec expects of call number `i` (from 0) for limit `L` and
full pages: page `i + 1`, 100 records unless it is the last call. -/
def expectedCall (L : Int) (i : Nat) : Int × Int :=
  ((i : Int) + 1, if i + 1 < expectedCallCount L then 100 else expectedLastSize L)

/-- Page and size of the calls the spec expects for limit `L` and full pages. -/
def expectedCalls (L : Int) : List (Int × Int) :=
  (List.range (expectedCallCount L)).map (expectedCall L)

/-- The remote calls made during a run. -/
def Outcome.calls {σ : Type} : Outcome σ → List Call
  | .returned _ _ _ calls => calls
  | .panicked _ calls => calls
  | .outOfFuel _ calls => calls

/-- A record with nothing but an id. -/
def sampleRecord (i : Int) : Value :=
  .pointer (.struct (.other "Deployment") (.cons "ID" (.pointer (.int i)) .nil))

/-- The records with ids `start`, `start + 1`, ..., `n` of them. -/
def sampleRecords (start n : Nat) : List Value :=
  (List.range n).map (fun i => sampleRecord ((start + i : Nat) : Int))

/-- A stand-in for `json.Marshal` that never fails. -/
def sampleMarshal (v : Value) : Except Error RawExtension :=
  match deploymentID v with
  | some i => .ok ⟨toString i⟩
  | none => .ok ⟨"null"⟩

/-- A remote with an endless supply of records that answers every request with
exactly as many records as asked for. Its state counts the records handed out. -/
def fullPages (s : Nat) (o : DeploymentsListOptions) : Except Error (List Value) × Nat :=
  (.ok (sampleRecords s o.PerPage.toNat), s + o.PerPage.toNat)

/-- A remote that hands back two records whatever page size is asked for. -/
def twoRecords (s : Nat) (_ : DeploymentsListOptions) : Except Error (List Value) × Nat :=
  (.ok (sampleRecords s 2), s + 2)

/-- A remote that answers page 1 in full and fails on every later page. -/
def failsAfterFirstPage (s : Nat) (o : DeploymentsListOptions) :
    Except Error (List Value) × Nat :=
  if o.Page = 1 then fullPages s o else (.error "502 Bad Gateway", s)

/-- A world around a remote: no secret is ever found missing, `sort.Slice` is an
insertion sort. -/
def sampleWorld (list : Nat → DeploymentsListOptions → Except Error (List Value) × Nat) :
    World Nat where
  GetSecretToken := fun _ _ => .ok "token"
  ListDeployments := fun _ s _ _ o => list s o
  sortSlice := insertionSort
  Marshal := sampleMarshal

/-- A declared object with every optional filter set and the given limit. -/
def sampleObject (limit : Int) : ListGithubDeployments where
  Namespace := "default"
  Generation := 1
  Spec := ⟨300000000000, "kluctl", "template-controller", none,
    some "main", some "", some "deploy", some "prod", "all", limit⟩
  Status := ⟨[], [⟨"stale"⟩]⟩

/-- Every call before the last got a page, and the last one too unless the loop
ended on its error. -/
def LoopResult.wellReplied {σ : Type} : LoopResult σ → Prop
  | .done _ _ cs => ∀ c ∈ cs, c.succeeded
  | .outOfFuel _ cs => ∀ c ∈ cs, c.succeeded
  | .failed e _ cs => ∃ pre o, cs = pre ++ [⟨o, .error e⟩] ∧ ∀ c ∈ pre, c.succeeded

mutual
/-- The value `simplifyObject` leaves behind (`simplifyObject_eq`). -/
def Value.simplified : Value → Value
  | .pointer e => .pointer e.simplified
  | .struct .PullRequest fs => .struct .PullRequest (fs.visited pullRequestKept)
  | .struct .User fs => .struct .User (fs.assign userKept)
  | .struct .Organization fs => .struct .Organization (fs.assign organisationKept)
  | .struct .Repository fs => .struct .Repository (fs.visited repositoryKept)
  | .struct (.other name) fs => .struct (.other name) (fs.visited allKept)
  | .slice es => .slice es.simplified
  | .bool b => .bool b
  | .int i => .int i
  | .string s => .string s
  | .other c => .other c
  | .nilPointer => .nilPointer
  | .nilSlice => .nilSlice
/-- The fields `visitFields keep` leaves behind (`visitFields_eq`). -/
def Fields.visited (keep : String → Bool) : Fields → Fields
  | .nil => .nil
  | .cons n v rest =>
    .cons n (if keep n then (if v.IsZero then v else v.simplified) else v.zeroOf)
      (rest.visited keep)
/-- The elements `visitElems` leaves behind (`visitElems_eq`). -/
def Values.simplified : Values → Values
  | .nil => .nil
  | .cons v rest => .cons v.simplified rest.simplified
end

/-- The fields as a list of pairs. -/
def Fields.toList : Fields → List (String × Value)
  | .nil => []
  | .cons n v rest => (n, v) :: rest.toList

/-- The struct `after` is `before` cut down to its id and login: the same fields
in the same order, `ID` and `Login` as they were, every other field zero. -/
def ReducedToIdAndLogin (before after : Fields) : Prop :=
  after.names = before.names ∧ after.get? "ID" = before.get? "ID" ∧
    after.get? "Login" = before.get? "Login" ∧
    ∀ p ∈ after.toList, p.1 ≠ "ID" → p.1 ≠ "Login" → p.2.IsZero = true

/-- A user with an id, a login and thirty-odd other fields, three of them
shown. -/
def sampleUser : Fields :=
  .cons "Login" (.pointer (.string "alice"))
    (.cons "ID" (.pointer (.int 7))
      (.cons "Email" (.pointer (.string "a@x.com"))
        (.cons "SiteAdmin" (.pointer (.bool true))
          (.cons "Permissions" (.other (some "map[admin:true]")) .nil))))

/-- What is left of `sampleUser`: id and login. -/
def sampleUserReduced : Fields :=
  .cons "Login" (.pointer (.string "alice"))
    (.cons "ID" (.pointer (.int 7))
      (.cons "Email" .nilPointer
        (.cons "SiteAdmin" .nilPointer
          (.cons "Permissions" (.other none) .nil))))

/-- A fetched record whose creator is `sampleUser`. -/
def sampleDeployment : Fields :=
  .cons "URL" (.pointer (.string "https://api.github.com/repos/o/r/deployments/1"))
    (.cons "ID" (.pointer (.int 1))
      (.cons "Payload" (.slice (.cons (.int 123) (.cons (.int 125) .nil)))
        (.cons "Creator" (.pointer (.struct .User sampleUser))
          (.cons "Description" .nilPointer .nil))))

/-- A repository with an owner and two of its many other fields. -/
def sampleRepository : Fields :=
  .cons "ID" (.pointer (.int 42))
    (.cons "NodeID" (.pointer (.string "R_42"))
      (.cons "Owner" (.pointer (.struct .User sampleUser))
        (.cons "Name" (.pointer (.string "template-controller"))
          (.cons "FullName" (.pointer (.string "kluctl/template-controller"))
            (.cons "Organization" (.pointer (.struct .Organization sampleUser))
              (.cons "Topics" (.slice (.cons (.string "k8s") .nil)) .nil))))))

/-- The ids go up strictly from `a` to `b`. -/
def idBelow (a b : Value) : Prop :=
  ∃ i j, deploymentID a = some i ∧ deploymentID b = some j ∧ i < j

/-! ## Reconcile -/

/-- Go `ctrl.Result`: the delay before the next run, in nanoseconds. -/
structure Result where
  RequeueAfter : Int
  deriving DecidableEq, Repr

/-- What `Reconcile` reaches through `r.Client`: `Get` reads the declared object
named by the request, `StatusUpdate` is `r.Status().Update`, which may fail.
`κ` is the state of the cluster. -/
structure Client (κ : Type) where
  Get : κ → String → Except Error ListGithubDeployments
  StatusUpdate : κ → ListGithubDeployments → Option Error × κ

/-- Go `apimeta.FindStatusCondition`: the first condition of the given type. -/
def FindStatusCondition (conditions : List Condition) (conditionType : String) :
    Option Condition :=
  conditions.find? (fun c => c.Type_ = conditionType)

/-- Go `apimeta.SetStatusCondition`, the transition time left out: the first
condition of the type of `newCondition` takes its status, reason, message and
observed generation; when there is none, `newCondition` is appended. -/
def SetStatusCondition : List Condition → Condition → List Condition
  | [], newCondition => [newCondition]
  | c :: rest, newCondition =>
    if c.Type_ = newCondition.Type_ then
      { c with
        Status := newCondition.Status
        Reason := newCondition.Reason
        Message := newCondition.Message
        ObservedGeneration := newCondition.ObservedGeneration } :: rest
    else c :: SetStatusCondition rest newCondition

/-- The condition `Reconcile` builds from what `doReconcile` returned (lines
60-67 and 70-76). -/
def readyCondition (err : Option Error) (generation : Int) : Condition :=
  match err with
  | some e => ⟨"Ready", "False", generation, "Error", e⟩
  | none => ⟨"Ready", "True", generation, "Success", "Success"⟩

/-- The `if err != nil ... else ...` of `Reconcile` (lines 60-78): the condition
is set in the status of the object. -/
def setReady (err : Option Error) (obj : ListGithubDeployments) : ListGithubDeployments :=
  { obj with Status := { obj.Status with
      Conditions := SetStatusCondition obj.Status.Conditions
        (readyCondition err obj.Generation) } }

/-- How a run of `Reconcile` ended. `obj` is the object as `Reconcile` left it,
`none` when it was not found. -/
inductive ReconcileOutcome (σ κ : Type) where
  | returned (result : Result) (err : Option Error) (obj : Option ListGithubDeployments)
      (s : σ) (k : κ) (calls : List Call)
  | panicked (s : σ) (k : κ) (calls : List Call)
  | outOfFuel (s : σ) (k : κ) (calls : List Call)

/-- Go `Reconcile(ctx, req)`. -/
def Reconcile {σ κ : Type} (w : World σ) (c : Client κ) (s : σ) (k : κ) (req : String) :
    ReconcileOutcome σ κ :=
  match c.Get k req with
  | .error err => .returned ⟨0⟩ (some err) none s k []
  | .ok obj =>
    match doReconcile w s obj with
    | .panicked s' calls => .panicked s' k calls
    | .outOfFuel s' calls => .outOfFuel s' k calls
    | .returned err obj s' calls =>
      let obj := setReady err obj
      match c.StatusUpdate k obj with
      | (some err, k') => .returned ⟨0⟩ (some err) (some obj) s' k' calls
      | (none, k') => .returned ⟨obj.Spec.Interval⟩ none (some obj) s' k' calls

/-- The condition list after a run of completed passes, oldest first; a pass is
given by what `doReconcile` returned and by the generation of the object. -/
def conditionsAfter (passes : List (Option Error × Int)) (conditions : List Condition) :
    List Condition :=
  passes.foldl (fun cs p => SetStatusCondition cs (readyCondition p.1 p.2)) conditions

/-- The page a call brought in, empty for a failed call. -/
def Call.page (c : Call) : List Value :=
  match c.reply with
  | .ok page => page
  | .error _ => []

/-- The records the calls brought in, in the order of the calls. -/
def fetchedRecords : List Call → List Value
  | [] => []
  | c :: cs => c.page ++ fetchedRecords cs

/-- A remote that holds `records` and answers page `p` of size `n` with the
records at positions `(p - 1) * n` to `p * n - 1`. Its state counts the calls. -/
def pagedRemote (records : List Value) (s : Nat) (o : DeploymentsListOptions) :
    Except Error (List Value) × Nat :=
  (.ok ((records.drop ((o.Page - 1) * o.PerPage).toNat).take o.PerPage.toNat), s + 1)

/-- A cluster that holds one object: `Get` returns it, `Status().Update` stores
it. -/
def storeClient : Client ListGithubDeployments where
  Get := fun k _ => .ok k
  StatusUpdate := fun _ obj => (none, obj)

/-- A cluster whose `Status().Update` fails. -/
def failingStoreClient : Client ListGithubDeployments where
  Get := fun k _ => .ok k
  StatusUpdate := fun k _ => (some "conflict", k)

/-! ## Vocabulary of the trace, order and sanitizer properties -/

/-- The call `c`, made after the calls `pre`, asks for the next page and for
`min(100, L - fetchedSoFar)` records. -/
def AskedInTurn (L : Int) (pre : List Call) (c : Call) : Prop :=
  c.opts.Page = (pre.length : Int) + 1 ∧
    c.opts.PerPage = min 100 (L - ((fetchedRecords pre).length : Int))

/-- The call `c`, made after the calls `pre`, is one after which the loop goes
on: it brought in a page of exactly the size asked for, full pages are all there
has been so far, and the records so far are fewer than `L`. -/
def WentOn (L : Int) (pre : List Call) (c : Call) : Prop :=
  ∃ page, c.reply = .ok page ∧ (page.length : Int) = c.opts.PerPage ∧
    (fetchedRecords (pre ++ [c])).length = 100 * (pre.length + 1) ∧
    ((fetchedRecords (pre ++ [c])).length : Int) < L

/-- The id of `a` is not above the id of `b`, where both are present. -/
def idNotAbove (a b : Value) : Prop :=
  ∀ i j, deploymentID a = some i → deploymentID b = some j → i ≤ j

/-- The entry `j` is the record `r` sanitized by `simplifyObject` and then
marshalled. -/
def IsEntryOf (marshal : Value → Except Error RawExtension) (r : Value) (j : RawExtension) :
    Prop :=
  ∃ r', simplifyObject r = .ok r' ∧ marshal r' = .ok j

mutual
/-- The value `after` is `before` with information removed: a leaf is as it was
or zero, a pointer is nil or points at such a value, a slice is nil or holds
such values, a struct has the same fields holding such values. -/
def Value.removedFrom : Value → Value → Bool
  | .bool a, .bool b => a == b || a == false
  | .int a, .int b => a == b || a == 0
  | .string a, .string b => a == b || a == ""
  | .other a, .other b => a == b || a.isNone
  | .nilPointer, .nilPointer => true
  | .nilPointer, .pointer _ => true
  | .pointer a, .pointer b => a.removedFrom b
  | .struct t fs, .struct u gs => t == u && fs.removedFrom gs
  | .nilSlice, .nilSlice => true
  | .nilSlice, .slice _ => true
  | .slice es, .slice ds => es.removedFrom ds
  | _, _ => false
/-- Field by field, under the same names. -/
def Fields.removedFrom : Fields → Fields → Bool
  | .nil, .nil => true
  | .cons n v rest, .cons m w more => n == m && v.removedFrom w && rest.removedFrom more
  | _, _ => false
/-- Element by element. -/
def Values.removedFrom : Values → Values → Bool
  | .nil, .nil => true
  | .cons v rest, .cons w more => v.removedFrom w && rest.removedFrom more
  | _, _ => false
end

mutual
/-- The values `a` and `b` are the same outside their pull-request, user,
organization and repository structs, which only have to be in the same
places. -/
def Value.sameOutside : Value → Value → Bool
  | .bool a, .bool b => a == b
  | .int a, .int b => a == b
  | .string a, .string b => a == b
  | .other a, .other b => a == b
  | .nilPointer, .nilPointer => true
  | .pointer a, .pointer b => a.sameOutside b
  | .struct (.other n) fs, .struct (.other m) gs => n == m && fs.sameOutside gs
  | .struct .PullRequest _, .struct .PullRequest _ => true
  | .struct .User _, .struct .User _ => true
  | .struct .Organization _, .struct .Organization _ => true
  | .struct .Repository _, .struct .Repository _ => true
  | .nilSlice, .nilSlice => true
  | .slice es, .slice ds => es.sameOutside ds
  | _, _ => false
/-- Field by field, under the same names. -/
def Fields.sameOutside : Fields → Fields → Bool
  | .nil, .nil => true
  | .cons n v rest, .cons m w more => n == m && v.sameOutside w && rest.sameOutside more
  | _, _ => false
/-- Element by element. -/
def Values.sameOutside : Values → Values → Bool
  | .nil, .nil => true
  | .cons v rest, .cons w more => v.sameOutside w && rest.sameOutside more
  | _, _ => false
end

mutual
/-- Some pull-request, user, organization or repository struct lies in the
value. -/
def Value.hasSpecial : Value → Bool
  | .pointer e => e.hasSpecial
  | .struct (.other _) fs => fs.hasSpecial
  | .struct _ _ => true
  | .slice es => es.hasSpecial
  | _ => false
/-- In some field. -/
def Fields.hasSpecial : Fields → Bool
  | .nil => false
  | .cons _ v rest => v.hasSpecial || rest.hasSpecial
/-- In some element. -/
def Values.hasSpecial : Values → Bool
  | .nil => false
  | .cons v rest => v.hasSpecial || rest.hasSpecial
end

/-- A pull request with links, a user and a label list. -/
def samplePullRequest : Fields :=
  .cons "Number" (.pointer (.int 12))
    (.cons "User" (.pointer (.struct .User sampleUser))
      (.cons "Labels" (.slice (.cons (.pointer (.struct (.other "Label")
          (.cons "Name" (.pointer (.string "bug")) .nil))) .nil))
        (.cons "Links" (.pointer (.struct (.other "PRLinks")
            (.cons "Self" (.pointer (.string "https://api.github.com/pulls/12")) .nil)))
          .nil)))

/-- A record with id 5, fetched first. -/
def tiedFirst : Value :=
  .pointer (.struct (.other "Deployment")
    (.cons "ID" (.pointer (.int 5)) (.cons "Ref" (.pointer (.string "first")) .nil)))

/-- Another record with id 5, fetched second. -/
def tiedSecond : Value :=
  .pointer (.struct (.other "Deployment")
    (.cons "ID" (.pointer (.int 5)) (.cons "Ref" (.pointer (.string "second")) .nil)))

/-! ## Properties of the pagination loop -/

theorem shrink_PerPage (limit : Int) (result : List Value) (o : DeploymentsListOptions) :
    ((result.length : Int) + o.PerPage > limit ∧
        (shrink limit result o).PerPage = limit - (result.length : Int)) ∨
      ((result.length : Int) + o.PerPage ≤ limit ∧ shrink limit result o = o) := by
  unfold shrink
  by_cases h : (result.length : Int) + o.PerPage > limit
  · left; simp [h]
  · right; simp [h]; omega

theorem shrink_Page (limit : Int) (result : List Value) (o : DeploymentsListOptions) :
    (shrink limit result o).Page = o.Page := by
  unfold shrink; split <;> rfl

theorem paginationLoop_succ {σ : Type}
    (list : σ → DeploymentsListOptions → Except Error (List Value) × σ) (limit : Int)
    (fuel : Nat) (s : σ) (o : DeploymentsListOptions) (result : List Value) (calls : List Call) :
    paginationLoop list limit (fuel + 1) s o result calls =
      match list s (shrink limit result o) with
      | (.error err, s') => .failed err s' (calls ++ [⟨shrink limit result o, .error err⟩])
      | (.ok page, s') =>
        if (page.length : Int) ≠ (shrink limit result o).PerPage ∨
            ((result ++ page).length : Int) ≥ limit then
          .done (result ++ page) s' (calls ++ [⟨shrink limit result o, .ok page⟩])
        else
          paginationLoop list limit fuel s'
            { shrink limit result o with Page := (shrink limit result o).Page + 1 }
            (result ++ page) (calls ++ [⟨shrink limit result o, .ok page⟩]) := by
  rfl

theorem paginationLoop_terminates {σ : Type}
    (list : σ → DeploymentsListOptions → Except Error (List Value) × σ) (limit : Int) :
    ∀ (fuel : Nat) (s : σ) (o : DeploymentsListOptions) (result : List Value) (calls : List Call),
      o.PerPage = 100 → (limit - (result.length : Int)).toNat < fuel →
      ∀ s' cs, paginationLoop list limit fuel s o result calls ≠ .outOfFuel s' cs := by
  intro fuel
  induction fuel with
  | zero => intro s o result calls _ h; omega
  | succ n ih =>
    intro s o result calls ho hfuel s' cs
    rw [paginationLoop_succ]
    rcases hl : list s (shrink limit result o) with ⟨rep, s1⟩
    cases rep with
    | error e => simp
    | ok page =>
      simp only
      split
      · simp
      · rename_i hc
        push_neg at hc
        obtain ⟨hc1, hc2⟩ := hc
        rcases shrink_PerPage limit result o with ⟨_, h2⟩ | ⟨h1, h2⟩
        · rw [h2] at hc1
          simp only [List.length_append, Nat.cast_add] at hc2
          omega
        · rw [h2] at hc1 ⊢
          apply ih
          · exact ho
          · simp only [List.length_append, Nat.cast_add] at hc2 ⊢
            omega

theorem paginationLoop_length_le {σ : Type}
    (list : σ → DeploymentsListOptions → Except Error (List Value) × σ) (limit : Int)
    (hb : RespectsPageSize list) :
    ∀ (fuel : Nat) (s : σ) (o : DeploymentsListOptions) (result : List Value) (calls : List Call)
      (r : List Value) (s' : σ) (cs : List Call),
      (result.length : Int) ≤ limit → 0 ≤ o.PerPage →
      paginationLoop list limit fuel s o result calls = .done r s' cs →
      (r.length : Int) ≤ limit := by
  intro fuel
  induction fuel with
  | zero => intro s o result calls r s' cs _ _ h; simp [paginationLoop] at h
  | succ n ih =>
    intro s o result calls r s' cs hlen ho h
    rw [paginationLoop_succ] at h
    have hpage : ∀ page, (list s (shrink limit result o)).1 = .ok page →
        0 ≤ (shrink limit result o).PerPage ∧ (result.length : Int) + (page.length : Int) ≤ limit := by
      intro page hp
      rcases shrink_PerPage limit result o with ⟨h1, h2⟩ | ⟨h1, h2⟩
      · have h0 : 0 ≤ (shrink limit result o).PerPage := by omega
        have := hb s _ page h0 hp
        omega
      · have h0 : 0 ≤ (shrink limit result o).PerPage := by rw [h2]; exact ho
        have := hb s _ page h0 hp
        rw [h2] at this
        rw [h2]
        omega
    rcases hl : list s (shrink limit result o) with ⟨rep, s1⟩
    rw [hl] at h hpage
    cases rep with
    | error e => simp at h
    | ok page =>
      obtain ⟨h0, hle⟩ := hpage page rfl
      simp only at h
      split at h
      · injection h with h1 _ _
        subst h1
        simp only [List.length_append, Nat.cast_add]
        exact hle
      · refine ih _ _ _ _ _ _ _ ?_ ?_ h
        · simp only [List.length_append, Nat.cast_add]
          exact hle
        · exact h0

theorem expectedCallCount_pos (N : Nat) (j : Nat) (h : 100 * j < N) :
    j < expectedCallCount (N : Int) := by
  unfold expectedCallCount
  omega

theorem paginationLoop_full {σ : Type}
    (list : σ → DeploymentsListOptions → Except Error (List Value) × σ) (N : Nat)
    (hfull : ReturnsFullPages list) :
    ∀ (fuel j : Nat) (s : σ) (o : DeploymentsListOptions) (result : List Value) (calls : List Call),
      o.Page = (j : Int) + 1 → o.PerPage = 100 → result.length = 100 * j → 100 * j < N →
      expectedCallCount (N : Int) ≤ fuel + j →
      calls.map Call.pageAndSize = (List.range j).map (expectedCall (N : Int)) →
      ∃ r s' cs, paginationLoop list (N : Int) fuel s o result calls = .done r s' cs ∧
        r.length = N ∧ cs.map Call.pageAndSize = expectedCalls (N : Int) := by
  intro fuel
  induction fuel with
  | zero =>
    intro j s o result calls _ _ _ hj hfuel _
    have := expectedCallCount_pos N j hj
    omega
  | succ n ih =>
    intro j s o result calls hpage hsize hlen hj hfuel hcalls
    rw [paginationLoop_succ]
    have hcnt : j < expectedCallCount (N : Int) := expectedCallCount_pos N j hj
    rcases shrink_PerPage (N : Int) result o with ⟨h1, h2⟩ | ⟨h1, h2⟩
    · -- the last, shortened page
      have h0 : 0 ≤ (shrink (N : Int) result o).PerPage := by omega
      obtain ⟨page, hp, hpl⟩ := hfull s _ h0
      rcases hl : list s (shrink (N : Int) result o) with ⟨rep, s1⟩
      rw [hl] at hp
      simp only at hp
      subst hp
      simp only
      have hbreak : ((page.length : Int) ≠ (shrink (N : Int) result o).PerPage ∨
          ((result ++ page).length : Int) ≥ (N : Int)) := by
        right
        simp only [List.length_append, Nat.cast_add]
        omega
      rw [if_pos hbreak]
      refine ⟨_, _, _, rfl, ?_, ?_⟩
      · simp only [List.length_append]
        omega
      · have hlast : expectedCallCount (N : Int) = j + 1 := by
          unfold expectedCallCount; omega
        unfold expectedCalls
        rw [hlast]
        rw [List.map_append, hcalls, List.range_succ, List.map_append]
        congr 1
        simp only [List.map_cons, List.map_nil, Call.pageAndSize, expectedCall, shrink_Page, hpage,
          hlast, lt_self_iff_false, if_false, h2]
        congr 2
        unfold expectedLastSize
        split <;> omega
    · -- a full page of 100
      have h0 : 0 ≤ (shrink (N : Int) result o).PerPage := by rw [h2, hsize]; omega
      obtain ⟨page, hp, hpl⟩ := hfull s _ h0
      rcases hl : list s (shrink (N : Int) result o) with ⟨rep, s1⟩
      rw [hl] at hp
      simp only at hp
      subst hp
      simp only
      rw [h2] at hpl ⊢
      rw [hsize] at hpl h1
      have hstep : (calls ++ [(⟨o, Except.ok page⟩ : Call)]).map Call.pageAndSize =
          (List.range (j + 1)).map (expectedCall (N : Int)) := by
        rw [List.map_append, hcalls, List.range_succ, List.map_append]
        congr 1
        simp only [List.map_cons, List.map_nil, Call.pageAndSize, expectedCall, hpage, hsize]
        congr 2
        split
        · rfl
        · have hlast : expectedCallCount (N : Int) = j + 1 := by omega
          unfold expectedCallCount at hlast
          unfold expectedLastSize
          split <;> omega
      by_cases hend : (N : Int) ≤ ((result ++ page).length : Int)
      · have hbreak : ((page.length : Int) ≠ o.PerPage ∨
            ((result ++ page).length : Int) ≥ (N : Int)) := Or.inr hend
        rw [if_pos hbreak]
        refine ⟨_, _, _, rfl, ?_, ?_⟩
        · simp only [List.length_append, Nat.cast_add] at hend ⊢
          omega
        · have hlast : expectedCallCount (N : Int) = j + 1 := by
            simp only [List.length_append, Nat.cast_add] at hend
            unfold expectedCallCount; omega
          rw [hstep]
          unfold expectedCalls
          rw [hlast]
      · have hcont : ¬ ((page.length : Int) ≠ o.PerPage ∨
            ((result ++ page).length : Int) ≥ (N : Int)) := by
          push_neg
          exact ⟨by rw [hsize]; exact hpl, by omega⟩
        rw [if_neg hcont]
        simp only [List.length_append, Nat.cast_add] at hend
        refine ih (j + 1) s1 _ _ _ ?_ ?_ ?_ ?_ ?_ hstep
        · simp only [hpage]; push_cast; ring
        · exact hsize
        · simp only [List.length_append]; omega
        · omega
        · omega

theorem buildDeployments_length (marshal : Value → Except Error RawExtension) :
    ∀ (xs : List Value) (acc out : List RawExtension),
      buildDeployments marshal xs acc = .ok out → out.length = acc.length + xs.length := by
  intro xs
  induction xs with
  | nil =>
    intro acc out h
    simp only [buildDeployments, Except.ok.injEq] at h
    simp [h]
  | cons pr rest ih =>
    intro acc out h
    simp only [buildDeployments] at h
    split at h
    · simp at h
    · split at h
      · simp at h
      · have := ih _ _ h
        simp only [List.length_append, List.length_cons, List.length_nil] at this ⊢
        omega

theorem orderStep_length (sortSlice : (Value → Value → Bool) → List Value → List Value)
    (hsort : SortsBy sortSlice lessByID) (result sorted : List Value)
    (h : orderStep sortSlice result = some sorted) : sorted.length = result.length := by
  unfold orderStep at h
  split at h
  · simp only [Option.some.injEq] at h; rw [← h]
  · split at h
    · simp only [Option.some.injEq] at h
      rw [← h]
      exact (hsort result).1.length_eq
    · simp at h

theorem reconcileWithToken_cases {σ : Type} (w : World σ) (s : σ) (obj : ListGithubDeployments)
    (token : String) :
    (reconcileWithToken w s obj token = .panicked s [] ∧
      (obj.Spec.Environment = none ∨ obj.Spec.Sha = none ∨ obj.Spec.Ref = none ∨
        obj.Spec.Task = none)) ∨
    ∃ environment sha ref task,
      obj.Spec.Environment = some environment ∧ obj.Spec.Sha = some sha ∧
      obj.Spec.Ref = some ref ∧ obj.Spec.Task = some task ∧
      reconcileWithToken w s obj token =
        match paginationLoop (fun s o => w.ListDeployments token s obj.Spec.Owner obj.Spec.Repo o)
          obj.Spec.Limit (loopFuel obj.Spec.Limit) s ⟨sha, ref, task, environment, 1, 100⟩ [] [] with
        | .outOfFuel s' calls => .outOfFuel s' calls
        | .failed err s' calls => .returned (some err) obj s' calls
        | .done result s' calls =>
          match orderStep w.sortSlice result with
          | none => .panicked s' calls
          | some sorted =>
            match buildDeployments w.Marshal sorted [] with
            | .error err => .returned (some err) obj s' calls
            | .ok newDeployments =>
              .returned none
                { obj with Status := { obj.Status with Deployments := newDeployments } } s' calls := by
  unfold reconcileWithToken
  rcases he : obj.Spec.Environment with _ | environment
  · left; simp
  rcases hs : obj.Spec.Sha with _ | sha
  · left; simp
  rcases hr : obj.Spec.Ref with _ | ref
  · left; simp
  rcases ht : obj.Spec.Task with _ | task
  · left; simp
  right
  exact ⟨environment, sha, ref, task, rfl, rfl, rfl, rfl, rfl⟩

theorem loopFuel_enough (limit : Int) : (limit - ((([] : List Value).length : Nat) : Int)).toNat < loopFuel limit := by
  unfold loopFuel
  simp

theorem reconcileWithToken_bound {σ : Type} (w : World σ) (s : σ) (obj : ListGithubDeployments)
    (token : String) (hL : 0 ≤ obj.Spec.Limit) (hsort : SortsBy w.sortSlice lessByID)
    (hb : RespectsPageSize (fun s o => w.ListDeployments token s obj.Spec.Owner obj.Spec.Repo o)) :
    (∀ s' cs, reconcileWithToken w s obj token ≠ .outOfFuel s' cs) ∧
    ∀ obj' s' cs, reconcileWithToken w s obj token = .returned none obj' s' cs →
      (obj'.Status.Deployments.length : Int) ≤ obj.Spec.Limit := by
  rcases reconcileWithToken_cases w s obj token with ⟨h, _⟩ | ⟨environment, sha, ref, task, _, _, _, _, h⟩
  · rw [h]; simp
  · rw [h]
    have hterm := paginationLoop_terminates
      (fun s o => w.ListDeployments token s obj.Spec.Owner obj.Spec.Repo o) obj.Spec.Limit
      (loopFuel obj.Spec.Limit) s ⟨sha, ref, task, environment, 1, 100⟩ [] [] rfl
      (loopFuel_enough _)
    have hlen := paginationLoop_length_le
      (fun s o => w.ListDeployments token s obj.Spec.Owner obj.Spec.Repo o) obj.Spec.Limit hb
      (loopFuel obj.Spec.Limit) s ⟨sha, ref, task, environment, 1, 100⟩ [] []
    rcases hloop : paginationLoop (fun s o => w.ListDeployments token s obj.Spec.Owner obj.Spec.Repo o)
      obj.Spec.Limit (loopFuel obj.Spec.Limit) s ⟨sha, ref, task, environment, 1, 100⟩ [] []
      with ⟨result, s1, calls⟩ | ⟨err, s1, calls⟩ | ⟨s1, calls⟩
    · simp only
      have hr := hlen result s1 calls (by simpa using hL) (by simp) hloop
      rcases ho : orderStep w.sortSlice result with _ | sorted
      · simp
      · simp only
        have hs := orderStep_length w.sortSlice hsort result sorted ho
        rcases hbd : buildDeployments w.Marshal sorted [] with err | newDeployments
        · simp
        · simp only
          refine ⟨by simp, ?_⟩
          intro obj' s' cs heq
          injection heq with _ h2 _ _
          subst h2
          have := buildDeployments_length w.Marshal sorted [] newDeployments hbd
          simp only [List.length_nil] at this
          simp only
          omega
    · simp
    · exact absurd hloop (hterm s1 calls)

theorem paginationLoop_replies {σ : Type}
    (list : σ → DeploymentsListOptions → Except Error (List Value) × σ) (limit : Int) :
    ∀ (fuel : Nat) (s : σ) (o : DeploymentsListOptions) (result : List Value) (calls : List Call),
      (∀ c ∈ calls, c.succeeded) →
      (paginationLoop list limit fuel s o result calls).wellReplied := by
  intro fuel
  induction fuel with
  | zero => intro s o result calls h; simpa [paginationLoop, LoopResult.wellReplied] using h
  | succ n ih =>
    intro s o result calls h
    rw [paginationLoop_succ]
    rcases hl : list s (shrink limit result o) with ⟨rep, s1⟩
    have hok : ∀ page, ∀ c ∈ calls ++ [(⟨shrink limit result o, Except.ok page⟩ : Call)],
        c.succeeded := by
      intro page c hc
      rcases List.mem_append.1 hc with hc | hc
      · exact h c hc
      · rw [List.mem_singleton] at hc
        subst hc
        exact ⟨page, rfl⟩
    cases rep with
    | error e => exact ⟨calls, _, rfl, h⟩
    | ok page =>
      simp only
      by_cases hc : (page.length : Int) ≠ (shrink limit result o).PerPage ∨
          ((result ++ page).length : Int) ≥ limit
      · rw [if_pos hc]
        exact hok page
      · rw [if_neg hc]
        exact ih _ _ _ _ (hok page)

theorem Call.not_succeeded_of_error (c : Call) (e : Error) (h : c.reply = .error e) :
    ¬ c.succeeded := by
  rintro ⟨page, hp⟩
  rw [h] at hp
  cases hp

theorem error_call_is_last (pre : List Call) (o' : DeploymentsListOptions) (e' : Error)
    (hpre : ∀ c ∈ pre, c.succeeded) (i : Nat) (c : Call) (e : Error)
    (hi : (pre ++ [(⟨o', .error e'⟩ : Call)])[i]? = some c) (he : c.reply = .error e) :
    e' = e ∧ (pre ++ [(⟨o', .error e'⟩ : Call)]).length = i + 1 ∧
      ∀ j c', j < i → (pre ++ [(⟨o', .error e'⟩ : Call)])[j]? = some c' → c'.succeeded := by
  by_cases hlt : i < pre.length
  · rw [List.getElem?_append_left hlt] at hi
    have hmem : c ∈ pre := List.getElem?_mem hi
    exact absurd (hpre c hmem) (Call.not_succeeded_of_error c e he)
  · have hge : pre.length ≤ i := Nat.le_of_not_lt hlt
    rw [List.getElem?_append_right hge] at hi
    by_cases h0 : i - pre.length = 0
    · rw [h0] at hi
      simp only [List.getElem?_cons_zero, Option.some.injEq] at hi
      subst hi
      simp only [Except.error.injEq] at he
      refine ⟨he, ?_, ?_⟩
      · simp only [List.length_append, List.length_cons, List.length_nil]
        omega
      · intro j c' hj hget
        rw [List.getElem?_append_left (by omega)] at hget
        exact hpre c' (List.getElem?_mem hget)
    · obtain ⟨m, hm⟩ := Nat.exists_eq_succ_of_ne_zero h0
      rw [hm] at hi
      simp at hi

theorem reconcileWithToken_error {σ : Type} (w : World σ) (s : σ) (obj : ListGithubDeployments)
    (token : String) (i : Nat) (c : Call) (e : Error)
    (hi : (reconcileWithToken w s obj token).calls[i]? = some c) (he : c.reply = .error e) :
    ∃ s' cs, reconcileWithToken w s obj token = .returned (some e) obj s' cs ∧
      cs.length = i + 1 ∧ ∀ j c', j < i → cs[j]? = some c' → c'.succeeded := by
  rcases reconcileWithToken_cases w s obj token with ⟨h, _⟩ | ⟨environment, sha, ref, task, _, _, _, _, h⟩
  · rw [h] at hi; simp [Outcome.calls] at hi
  · rw [h] at hi ⊢
    have hrep := paginationLoop_replies
      (fun s o => w.ListDeployments token s obj.Spec.Owner obj.Spec.Repo o) obj.Spec.Limit
      (loopFuel obj.Spec.Limit) s ⟨sha, ref, task, environment, 1, 100⟩ [] [] (by simp)
    have hcontra : ∀ cs : List Call, (∀ c ∈ cs, c.succeeded) → cs[i]? = some c → False :=
      fun cs hall hget =>
        Call.not_succeeded_of_error c e he (hall c (List.getElem?_mem hget))
    rcases hloop : paginationLoop (fun s o => w.ListDeployments token s obj.Spec.Owner obj.Spec.Repo o)
      obj.Spec.Limit (loopFuel obj.Spec.Limit) s ⟨sha, ref, task, environment, 1, 100⟩ [] []
      with ⟨result, s1, calls⟩ | ⟨err, s1, calls⟩ | ⟨s1, calls⟩
    · rw [hloop] at hrep hi
      simp only [LoopResult.wellReplied] at hrep hi
      exfalso
      apply hcontra calls hrep
      rcases ho : orderStep w.sortSlice result with _ | sorted
      · rw [ho] at hi
        exact hi
      · rw [ho] at hi
        simp only at hi
        rcases hbd : buildDeployments w.Marshal sorted [] with err | newDeployments
        · rw [hbd] at hi
          exact hi
        · rw [hbd] at hi
          exact hi
    · rw [hloop] at hrep hi
      simp only [Outcome.calls, LoopResult.wellReplied] at hrep hi
      obtain ⟨pre, o', hcs, hpre⟩ := hrep
      subst hcs
      obtain ⟨h1, h2, h3⟩ := error_call_is_last pre o' err hpre i c e hi he
      subst h1
      exact ⟨s1, _, rfl, h2, h3⟩
    · rw [hloop] at hrep hi
      simp only [LoopResult.wellReplied, Outcome.calls] at hrep hi
      exact absurd hi (fun hget => hcontra calls hrep hget)

theorem lessByID_asymm (a b : Value) (h : lessByID a b = true) : lessByID b a = false := by
  unfold lessByID at h ⊢
  revert h
  rcases deploymentID a with _ | x <;> rcases deploymentID b with _ | y <;> simp
  omega

theorem lessByID_chain (x y z : Value) (hxy : lessByID x y = true) (hzy : lessByID z y = false) :
    lessByID z x = false := by
  unfold lessByID at hxy hzy ⊢
  revert hxy hzy
  rcases deploymentID x with _ | a <;> rcases deploymentID y with _ | b <;>
    rcases deploymentID z with _ | c <;> simp
  omega

theorem insertSorted_perm (less : Value → Value → Bool) (x : Value) :
    ∀ xs, (insertSorted less x xs).Perm (x :: xs) := by
  intro xs
  induction xs with
  | nil => exact List.Perm.refl _
  | cons y ys ih =>
    unfold insertSorted
    split
    · exact List.Perm.refl _
    · exact ((List.Perm.cons y ih).trans (List.Perm.swap x y ys))

theorem insertionSort_perm (less : Value → Value → Bool) :
    ∀ xs, (insertionSort less xs).Perm xs := by
  intro xs
  induction xs with
  | nil => exact List.Perm.refl _
  | cons x xs ih =>
    unfold insertionSort
    exact (insertSorted_perm less x _).trans (List.Perm.cons x ih)

theorem insertSorted_pairwise (x : Value) :
    ∀ xs, xs.Pairwise (fun a b => lessByID b a = false) →
      (insertSorted lessByID x xs).Pairwise (fun a b => lessByID b a = false) := by
  intro xs
  induction xs with
  | nil => intro _; simp [insertSorted]
  | cons y ys ih =>
    intro h
    rw [List.pairwise_cons] at h
    unfold insertSorted
    split
    · rename_i hxy
      rw [List.pairwise_cons]
      refine ⟨?_, List.pairwise_cons.2 h⟩
      intro z hz
      rcases List.mem_cons.1 hz with hz | hz
      · subst hz; exact lessByID_asymm x z hxy
      · exact lessByID_chain x y z hxy (h.1 z hz)
    · rename_i hxy
      rw [List.pairwise_cons]
      refine ⟨?_, ih h.2⟩
      intro z hz
      have hz' := (insertSorted_perm lessByID x ys).mem_iff.1 hz
      rcases List.mem_cons.1 hz' with hz' | hz'
      · subst hz'; simpa using hxy
      · exact h.1 z hz'

theorem insertionSort_sortsBy : SortsBy insertionSort lessByID := by
  intro xs
  refine ⟨insertionSort_perm lessByID xs, ?_⟩
  induction xs with
  | nil => simp [insertionSort]
  | cons x xs ih =>
    unfold insertionSort
    exact insertSorted_pairwise x _ ih

theorem fullPages_returnsFullPages : ReturnsFullPages fullPages := by
  intro s o h
  refine ⟨_, rfl, ?_⟩
  simp only [sampleRecords, List.length_map, List.length_range]
  omega

theorem fullPages_respectsPageSize : RespectsPageSize fullPages := by
  intro s o page h hp
  simp only [fullPages, Except.ok.injEq] at hp
  subst hp
  simp only [sampleRecords, List.length_map, List.length_range]
  omega

/-- C1 (amended). When no answer of the remote holds more records than the page
size it was asked for, then for every limit `L >= 0` the pagination loop ends
with at most `L` records, `doReconcile` does not run on for ever, and a
successful `doReconcile` leaves at most `L` entries in `status.deployments`. -/
theorem limit_bounds_records {σ : Type} (w : World σ) (s : σ) (obj : ListGithubDeployments)
    (hL : 0 ≤ obj.Spec.Limit) (hsort : SortsBy w.sortSlice lessByID)
    (hb : ∀ token,
      RespectsPageSize (fun s o => w.ListDeployments token s obj.Spec.Owner obj.Spec.Repo o)) :
    (∀ token fuel s0 sha ref task environment r s' cs,
      paginationLoop (fun s o => w.ListDeployments token s obj.Spec.Owner obj.Spec.Repo o)
        obj.Spec.Limit fuel s0 ⟨sha, ref, task, environment, 1, 100⟩ [] [] = .done r s' cs →
      (r.length : Int) ≤ obj.Spec.Limit) ∧
    (∀ s' cs, doReconcile w s obj ≠ .outOfFuel s' cs) ∧
    (∀ obj' s' cs, doReconcile w s obj = .returned none obj' s' cs →
      (obj'.Status.Deployments.length : Int) ≤ obj.Spec.Limit) := by
  refine ⟨?_, ?_⟩
  · intro token fuel s0 sha ref task environment r s' cs h
    exact paginationLoop_length_le _ _ (hb token) fuel s0 _ [] [] r s' cs (by simpa using hL)
      (by simp) h
  · unfold doReconcile
    rcases obj.Spec.TokenRef with _ | ref
    · exact reconcileWithToken_bound w s obj "" hL hsort (hb "")
    · simp only
      rcases w.GetSecretToken obj.Namespace ref with err | token
      · simp
      · exact reconcileWithToken_bound w s obj token hL hsort (hb token)

/-- Witness for C1 (amended): a remote with full pages and limit 3. -/
theorem limit_bounds_records_witness :
    ∃ obj' s' cs, doReconcile (sampleWorld fullPages) 0 (sampleObject 3) =
        .returned none obj' s' cs ∧
      obj'.Status.Deployments.length = 3 ∧
      (obj'.Status.Deployments.length : Int) ≤ (sampleObject 3).Spec.Limit :=
  ⟨_, _, _, rfl, rfl,
    (limit_bounds_records (sampleWorld fullPages) 0 (sampleObject 3) (by decide)
      insertionSort_sortsBy (fun _ => fullPages_respectsPageSize)).2.2 _ _ _ rfl⟩

/-- C1 as stated fails: with limit 1 the loop asks for one record, the remote
hands back two, and both are accumulated and written to the status. -/
theorem limit_exceeded_when_remote_returns_more :
    (∃ s' cs, paginationLoop twoRecords 1 (loopFuel 1) 0 ⟨"", "main", "deploy", "prod", 1, 100⟩
        [] [] = .done (sampleRecords 0 2) s' cs ∧
      cs.map Call.pageAndSize = [(1, 1)] ∧
      ¬ (((sampleRecords 0 2).length : Int) ≤ 1)) ∧
    (∃ obj' s' cs, doReconcile (sampleWorld twoRecords) 0 (sampleObject 1) =
        .returned none obj' s' cs ∧
      ¬ ((obj'.Status.Deployments.length : Int) ≤ (sampleObject 1).Spec.Limit)) :=
  ⟨⟨_, _, rfl, rfl, by decide⟩, ⟨_, _, _, rfl, by decide⟩⟩

theorem doReconcile_with_token {σ : Type} (w : World σ) (s : σ) (obj : ListGithubDeployments)
    (htoken : ∀ ref, obj.Spec.TokenRef = some ref →
      ∃ token, w.GetSecretToken obj.Namespace ref = .ok token) :
    ∃ token, doReconcile w s obj = reconcileWithToken w s obj token := by
  unfold doReconcile
  rcases hr : obj.Spec.TokenRef with _ | ref
  · exact ⟨"", rfl⟩
  · obtain ⟨token, ht⟩ := htoken ref hr
    exact ⟨token, by simp only [ht]⟩

theorem reconcileWithToken_calls {σ : Type} (w : World σ) (s : σ) (obj : ListGithubDeployments)
    (token environment sha ref task : String)
    (he : obj.Spec.Environment = some environment) (hs : obj.Spec.Sha = some sha)
    (hr : obj.Spec.Ref = some ref) (ht : obj.Spec.Task = some task) :
    (reconcileWithToken w s obj token).calls =
      (paginationLoop (fun s o => w.ListDeployments token s obj.Spec.Owner obj.Spec.Repo o)
        obj.Spec.Limit (loopFuel obj.Spec.Limit) s ⟨sha, ref, task, environment, 1, 100⟩
        [] []).calls := by
  unfold reconcileWithToken
  simp only [he, hs, hr, ht]
  rcases paginationLoop (fun s o => w.ListDeployments token s obj.Spec.Owner obj.Spec.Repo o)
      obj.Spec.Limit (loopFuel obj.Spec.Limit) s ⟨sha, ref, task, environment, 1, 100⟩ [] []
      with ⟨result, s1, calls⟩ | ⟨err, s1, calls⟩ | ⟨s1, calls⟩
  · simp only
    rcases orderStep w.sortSlice result with _ | sorted
    · rfl
    · simp only
      rcases buildDeployments w.Marshal sorted [] with err | newDeployments <;> rfl
  · rfl
  · rfl

theorem expectedCallCount_le_loopFuel (L : Int) : expectedCallCount L ≤ loopFuel L + 0 := by
  unfold expectedCallCount loopFuel
  omega

/-- C2. For every limit `L >= 1` and a remote that answers every call with
exactly the page size asked for, the pagination loop ends with `L` records after
exactly ceil(L/100) calls, for the pages 1, 2, ... in that order, each for 100
records but the last, which is for `L mod 100` records (100 when `L` is a
multiple of 100); the calls of `doReconcile` are these whenever it gets as far
as the loop. -/
theorem full_pages_call_sequence {σ : Type} (w : World σ) (s : σ) (obj : ListGithubDeployments)
    (hL : 1 ≤ obj.Spec.Limit)
    (hfull : ∀ token,
      ReturnsFullPages (fun s o => w.ListDeployments token s obj.Spec.Owner obj.Spec.Repo o)) :
    (∀ token s0 sha ref task environment, ∃ r s' cs,
      paginationLoop (fun s o => w.ListDeployments token s obj.Spec.Owner obj.Spec.Repo o)
        obj.Spec.Limit (loopFuel obj.Spec.Limit) s0 ⟨sha, ref, task, environment, 1, 100⟩ [] [] =
        .done r s' cs ∧
      (r.length : Int) = obj.Spec.Limit ∧ cs.length = expectedCallCount obj.Spec.Limit ∧
      cs.map Call.pageAndSize = expectedCalls obj.Spec.Limit) ∧
    (obj.Spec.Environment ≠ none → obj.Spec.Sha ≠ none → obj.Spec.Ref ≠ none →
      obj.Spec.Task ≠ none →
      (∀ ref, obj.Spec.TokenRef = some ref →
        ∃ token, w.GetSecretToken obj.Namespace ref = .ok token) →
      (doReconcile w s obj).calls.map Call.pageAndSize = expectedCalls obj.Spec.Limit) := by
  have hloop : ∀ token s0 sha ref task environment, ∃ r s' cs,
      paginationLoop (fun s o => w.ListDeployments token s obj.Spec.Owner obj.Spec.Repo o)
        obj.Spec.Limit (loopFuel obj.Spec.Limit) s0 ⟨sha, ref, task, environment, 1, 100⟩ [] [] =
        .done r s' cs ∧
      (r.length : Int) = obj.Spec.Limit ∧ cs.length = expectedCallCount obj.Spec.Limit ∧
      cs.map Call.pageAndSize = expectedCalls obj.Spec.Limit := by
    intro token s0 sha ref task environment
    obtain ⟨N, hN⟩ := Int.eq_ofNat_of_zero_le (by omega : 0 ≤ obj.Spec.Limit)
    rw [hN]
    obtain ⟨r, s', cs, h1, h2, h3⟩ := paginationLoop_full
      (fun s o => w.ListDeployments token s obj.Spec.Owner obj.Spec.Repo o) N (hfull token)
      (loopFuel (N : Int)) 0 s0 ⟨sha, ref, task, environment, 1, 100⟩ [] [] (by simp) rfl
      (by simp) (by omega) (expectedCallCount_le_loopFuel _) (by simp)
    refine ⟨r, s', cs, h1, by rw [h2], ?_, h3⟩
    have := congrArg List.length h3
    simpa [expectedCalls] using this
  refine ⟨hloop, ?_⟩
  intro he hs hr ht htoken
  obtain ⟨token, htok⟩ := doReconcile_with_token w s obj htoken
  obtain ⟨environment, he'⟩ := Option.ne_none_iff_exists'.1 he
  obtain ⟨sha, hs'⟩ := Option.ne_none_iff_exists'.1 hs
  obtain ⟨ref, hr'⟩ := Option.ne_none_iff_exists'.1 hr
  obtain ⟨task, ht'⟩ := Option.ne_none_iff_exists'.1 ht
  rw [htok, reconcileWithToken_calls w s obj token environment sha ref task he' hs' hr' ht']
  obtain ⟨r, s', cs, h1, _, _, h4⟩ := hloop token s sha ref task environment
  rw [h1]
  exact h4

/-- Witness for C2: limit 250 takes the calls (1, 100), (2, 100), (3, 50). -/
theorem full_pages_call_sequence_witness :
    (1 : Int) ≤ (sampleObject 250).Spec.Limit ∧
    expectedCalls 250 = [(1, 100), (2, 100), (3, 50)] ∧
    (doReconcile (sampleWorld fullPages) 0 (sampleObject 250)).calls.map Call.pageAndSize =
      expectedCalls 250 :=
  ⟨by decide, by decide,
    (full_pages_call_sequence (sampleWorld fullPages) 0 (sampleObject 250) (by decide)
      (fun _ => fullPages_returnsFullPages)).2 (by decide) (by decide) (by decide) (by decide)
      (by intro ref h; cases h)⟩

/-- C3 fails on the code. With limit 0 the loop still makes one call, for page 1
with page size 0, whatever the remote is; and when the remote answers that call
with records (here two), they are accumulated and written to the status. -/
theorem limit_zero_still_calls {σ : Type}
    (list : σ → DeploymentsListOptions → Except Error (List Value) × σ) (s : σ)
    (sha ref task environment : String) :
    (paginationLoop list 0 (loopFuel 0) s ⟨sha, ref, task, environment, 1, 100⟩ [] []).calls
        = [⟨⟨sha, ref, task, environment, 1, 0⟩,
            (list s ⟨sha, ref, task, environment, 1, 0⟩).1⟩] ∧
    (doReconcile (sampleWorld twoRecords) 0 (sampleObject 0)).calls.map Call.pageAndSize
        = [(1, 0)] ∧
    ∃ s' cs, doReconcile (sampleWorld twoRecords) 0 (sampleObject 0) =
      .returned none
        { sampleObject 0 with Status := ⟨[], [⟨"0"⟩, ⟨"1"⟩]⟩ } s' cs := by
  refine ⟨?_, rfl, _, _, rfl⟩
  have hfuel : loopFuel 0 = 0 + 1 := rfl
  have hshrink : shrink 0 [] ⟨sha, ref, task, environment, 1, 100⟩ =
      ⟨sha, ref, task, environment, 1, 0⟩ := rfl
  rw [hfuel, paginationLoop_succ, hshrink]
  rcases list s ⟨sha, ref, task, environment, 1, 0⟩ with ⟨rep, s1⟩
  cases rep with
  | error e => rfl
  | ok page =>
    simp only
    have hbreak : ((page.length : Int) ≠ 0 ∨ ((([] : List Value) ++ page).length : Int) ≥ 0) :=
      Or.inr (by omega)
    rw [if_pos hbreak]
    rfl

/-- C4. If the `k`-th remote call of a run of `doReconcile` comes back with the
error `e`, then `doReconcile` returns exactly `e`, that call is the last one
(`k` calls in all, the earlier ones having succeeded), and the object, its
`status.deployments` included, is as it was before the run. -/
theorem fetch_error_aborts {σ : Type} (w : World σ) (s : σ) (obj : ListGithubDeployments)
    (k : Nat) (c : Call) (e : Error) (hk : 1 ≤ k)
    (hcall : (doReconcile w s obj).calls[k - 1]? = some c) (herr : c.reply = .error e) :
    ∃ s' cs, doReconcile w s obj = .returned (some e) obj s' cs ∧ cs.length = k ∧
      (∀ i c', i < k - 1 → cs[i]? = some c' → c'.succeeded) := by
  have key : ∃ s' cs, doReconcile w s obj = .returned (some e) obj s' cs ∧
      cs.length = k - 1 + 1 ∧ ∀ j c', j < k - 1 → cs[j]? = some c' → c'.succeeded := by
    unfold doReconcile at hcall ⊢
    rcases hr : obj.Spec.TokenRef with _ | ref
    · simp only [hr] at hcall
      exact reconcileWithToken_error w s obj "" (k - 1) c e hcall herr
    · simp only [hr] at hcall
      rcases ht : w.GetSecretToken obj.Namespace ref with err | token
      · simp [ht, Outcome.calls] at hcall
      · simp only [ht] at hcall ⊢
        exact reconcileWithToken_error w s obj token (k - 1) c e hcall herr
  obtain ⟨s', cs, h1, h2, h3⟩ := key
  exact ⟨s', cs, h1, by omega, h3⟩

/-- Witness for C4: with limit 150 the first page comes in full and the second
call fails; the error is returned and the stale list stays. -/
theorem fetch_error_aborts_witness :
    ∃ s' cs, doReconcile (sampleWorld failsAfterFirstPage) 0 (sampleObject 150) =
        .returned (some "502 Bad Gateway") (sampleObject 150) s' cs ∧ cs.length = 2 ∧
      (∀ i c', i < 2 - 1 → cs[i]? = some c' → c'.succeeded) :=
  fetch_error_aborts (sampleWorld failsAfterFirstPage) 0 (sampleObject 150) 2
    ⟨⟨"", "main", "deploy", "prod", 2, 50⟩, .error "502 Bad Gateway"⟩ "502 Bad Gateway"
    (by decide) rfl rfl

/-! ## The sanitizer, the ordering step and the filters -/

mutual
theorem simplifyObject_eq : ∀ v : Value, simplifyObject v = .ok v.simplified
  | .pointer e => by simp only [simplifyObject, Value.simplified, simplifyObject_eq e]
  | .struct .PullRequest fs => by
    simp only [simplifyObject, Value.simplified, visitFields_eq pullRequestKept fs]
  | .struct .User fs => by simp only [simplifyObject, Value.simplified, simplifyUser]
  | .struct .Organization fs => by
    simp only [simplifyObject, Value.simplified, simplifyOrganisation]
  | .struct .Repository fs => by
    simp only [simplifyObject, Value.simplified, visitFields_eq repositoryKept fs]
  | .struct (.other name) fs => by
    simp only [simplifyObject, Value.simplified, visitFields_eq allKept fs]
  | .slice es => by simp only [simplifyObject, Value.simplified, visitElems_eq es]
  | .bool b => by simp only [simplifyObject, Value.simplified]
  | .int i => by simp only [simplifyObject, Value.simplified]
  | .string s => by simp only [simplifyObject, Value.simplified]
  | .other c => by simp only [simplifyObject, Value.simplified]
  | .nilPointer => by simp only [simplifyObject, Value.simplified]
  | .nilSlice => by simp only [simplifyObject, Value.simplified]
theorem visitFields_eq (keep : String → Bool) :
    ∀ fs : Fields, visitFields keep fs = .ok (fs.visited keep)
  | .nil => by simp only [visitFields, Fields.visited]
  | .cons n v rest => by
    simp only [visitFields, Fields.visited, visitFields_eq keep rest, simplifyObject_eq v]
    by_cases hk : keep n = true
    · by_cases hz : v.IsZero = true
      · simp only [hk, hz, if_true]
      · simp only [hk, hz, if_true, if_false]
        simp
    · simp only [hk, if_false]
      simp
theorem visitElems_eq : ∀ es : Values, visitElems es = .ok es.simplified
  | .nil => by simp only [visitElems, Values.simplified]
  | .cons v rest => by
    simp only [visitElems, Values.simplified, simplifyObject_eq v, visitElems_eq rest]
end

mutual
theorem Value.isZero_zeroOf : ∀ v : Value, v.zeroOf.IsZero = true
  | .pointer _ => by simp [Value.zeroOf, Value.IsZero]
  | .struct _ fs => by simp only [Value.zeroOf, Value.IsZero, Fields.allZero_zeroOf fs]
  | .slice _ => by simp [Value.zeroOf, Value.IsZero]
  | .bool _ => by simp [Value.zeroOf, Value.IsZero]
  | .int _ => by simp [Value.zeroOf, Value.IsZero]
  | .string _ => by simp [Value.zeroOf, Value.IsZero]
  | .other _ => by simp [Value.zeroOf, Value.IsZero]
  | .nilPointer => by simp [Value.zeroOf, Value.IsZero]
  | .nilSlice => by simp [Value.zeroOf, Value.IsZero]
theorem Fields.allZero_zeroOf : ∀ fs : Fields, fs.zeroOf.allZero = true
  | .nil => by simp [Fields.zeroOf, Fields.allZero]
  | .cons _ v rest => by
    simp only [Fields.zeroOf, Fields.allZero, Value.isZero_zeroOf v, Fields.allZero_zeroOf rest,
      Bool.and_self]
end

mutual
theorem Value.zeroOf_zeroOf : ∀ v : Value, v.zeroOf.zeroOf = v.zeroOf
  | .pointer _ => by simp [Value.zeroOf]
  | .struct _ fs => by simp only [Value.zeroOf, Fields.zeroOf_idem fs]
  | .slice _ => by simp [Value.zeroOf]
  | .bool _ => by simp [Value.zeroOf]
  | .int _ => by simp [Value.zeroOf]
  | .string _ => by simp [Value.zeroOf]
  | .other _ => by simp [Value.zeroOf]
  | .nilPointer => by simp [Value.zeroOf]
  | .nilSlice => by simp [Value.zeroOf]
theorem Fields.zeroOf_idem : ∀ fs : Fields, fs.zeroOf.zeroOf = fs.zeroOf
  | .nil => by simp [Fields.zeroOf]
  | .cons _ v rest => by
    simp only [Fields.zeroOf, Value.zeroOf_zeroOf v, Fields.zeroOf_idem rest]
end

theorem Fields.assign_assign (keep : String → Bool) :
    ∀ fs : Fields, (fs.assign keep).assign keep = fs.assign keep
  | .nil => by simp [Fields.assign]
  | .cons n v rest => by
    simp only [Fields.assign, Fields.assign_assign keep rest]
    by_cases hk : keep n = true
    · simp [hk]
    · simp [hk, Value.zeroOf_zeroOf]

mutual
theorem Value.simplified_simplified : ∀ v : Value, v.simplified.simplified = v.simplified
  | .pointer e => by simp only [Value.simplified, Value.simplified_simplified e]
  | .struct .PullRequest fs => by
    simp only [Value.simplified, Fields.visited_visited pullRequestKept fs]
  | .struct .User fs => by simp only [Value.simplified, Fields.assign_assign]
  | .struct .Organization fs => by simp only [Value.simplified, Fields.assign_assign]
  | .struct .Repository fs => by
    simp only [Value.simplified, Fields.visited_visited repositoryKept fs]
  | .struct (.other name) fs => by
    simp only [Value.simplified, Fields.visited_visited allKept fs]
  | .slice es => by simp only [Value.simplified, Values.simplified_idem es]
  | .bool b => by simp only [Value.simplified]
  | .int i => by simp only [Value.simplified]
  | .string s => by simp only [Value.simplified]
  | .other c => by simp only [Value.simplified]
  | .nilPointer => by simp only [Value.simplified]
  | .nilSlice => by simp only [Value.simplified]
theorem Fields.visited_visited (keep : String → Bool) :
    ∀ fs : Fields, (fs.visited keep).visited keep = fs.visited keep
  | .nil => by simp only [Fields.visited]
  | .cons n v rest => by
    simp only [Fields.visited, Fields.visited_visited keep rest]
    by_cases hk : keep n = true
    · by_cases hz : v.IsZero = true
      · simp [hk, hz]
      · have ih := Value.simplified_simplified v
        simp only [hk, hz, if_true, if_false]
        by_cases hz' : v.simplified.IsZero = true
        · simp [hz']
        · simp [hz', ih]
    · simp [hk, Value.zeroOf_zeroOf]
theorem Values.simplified_idem : ∀ es : Values, es.simplified.simplified = es.simplified
  | .nil => by simp only [Values.simplified]
  | .cons v rest => by
    simp only [Values.simplified, Value.simplified_simplified v,
      Values.simplified_idem rest]
end

theorem Fields.visited_eq_assign (keep : String → Bool) :
    ∀ fs : Fields, fs.visited keep = (fs.assign keep).visited allKept
  | .nil => by simp only [Fields.visited, Fields.assign]
  | .cons n v rest => by
    simp only [Fields.visited, Fields.assign, Fields.visited_eq_assign keep rest, allKept]
    by_cases hk : keep n = true
    · simp [hk]
    · simp [hk, Value.isZero_zeroOf]

/-- The field loop behind the struct cases is the source's two steps: the
assignment, then `simplifyObjectGeneric`. -/
theorem visitFields_eq_generic_assign (keep : String → Bool) (fs : Fields) :
    visitFields keep fs = simplifyObjectGeneric (fs.assign keep) := by
  unfold simplifyObjectGeneric
  rw [visitFields_eq, visitFields_eq, Fields.visited_eq_assign]

/-- The `*github.PullRequest` case hands the struct to `simplifyPullRequest`. -/
theorem simplifyObject_pullRequest (fs : Fields) :
    simplifyObject (.struct .PullRequest fs) =
      match simplifyPullRequest fs with
      | .error err => .error err
      | .ok fs' => .ok (.struct .PullRequest fs') := by
  unfold simplifyPullRequest
  rw [← visitFields_eq_generic_assign]
  simp only [simplifyObject]

/-- The `*github.Repository` case hands the struct to `simplifyRepository`. -/
theorem simplifyObject_repository (fs : Fields) :
    simplifyObject (.struct .Repository fs) =
      match simplifyRepository (some fs) with
      | .error err => .error err
      | .ok none => .ok (.struct .Repository fs)
      | .ok (some fs') => .ok (.struct .Repository fs') := by
  have h : simplifyRepository (some fs) =
      match visitFields repositoryKept fs with
      | .error err => .error err
      | .ok fs' => .ok (some fs') := by
    rw [visitFields_eq_generic_assign]; rfl
  rw [h]
  simp only [simplifyObject]
  rcases visitFields repositoryKept fs with err | fs' <;> rfl

/-- The default case hands the struct to `simplifyObjectGeneric`. -/
theorem simplifyObject_generic (name : String) (fs : Fields) :
    simplifyObject (.struct (.other name) fs) =
      match simplifyObjectGeneric fs with
      | .error err => .error err
      | .ok fs' => .ok (.struct (.other name) fs') := by
  unfold simplifyObjectGeneric
  simp only [simplifyObject]

theorem Fields.names_assign (keep : String → Bool) :
    ∀ fs : Fields, (fs.assign keep).names = fs.names
  | .nil => rfl
  | .cons n v rest => by simp only [Fields.assign, Fields.names, Fields.names_assign keep rest]

theorem Fields.get?_assign (keep : String → Bool) (name : String) :
    ∀ fs : Fields, (fs.assign keep).get? name =
      (fs.get? name).map (fun v => if keep name then v else v.zeroOf)
  | .nil => rfl
  | .cons n v rest => by
    simp only [Fields.assign, Fields.get?]
    by_cases hn : n = name
    · subst hn; simp
    · simp [hn, Fields.get?_assign keep name rest]

theorem Fields.isZero_of_mem_assign (keep : String → Bool) :
    ∀ fs : Fields, ∀ p ∈ (fs.assign keep).toList, keep p.1 = false → p.2.IsZero = true
  | .nil => by intro p hp; simp [Fields.assign, Fields.toList] at hp
  | .cons n v rest => by
    intro p hp hk
    simp only [Fields.assign, Fields.toList, List.mem_cons] at hp
    rcases hp with hp | hp
    · subst hp
      simp only at hk ⊢
      simp [hk, Value.isZero_zeroOf]
    · exact Fields.isZero_of_mem_assign keep rest p hp hk

theorem Fields.names_visited (keep : String → Bool) :
    ∀ fs : Fields, (fs.visited keep).names = fs.names
  | .nil => rfl
  | .cons n v rest => by
    simp only [Fields.visited, Fields.names, Fields.names_visited keep rest]

theorem Fields.get?_visited (keep : String → Bool) (name : String) :
    ∀ fs : Fields, (fs.visited keep).get? name =
      (fs.get? name).map
        (fun v => if keep name then (if v.IsZero then v else v.simplified) else v.zeroOf)
  | .nil => rfl
  | .cons n v rest => by
    simp only [Fields.visited, Fields.get?]
    by_cases hn : n = name
    · subst hn; simp
    · simp [hn, Fields.get?_visited keep name rest]

theorem Fields.isZero_of_mem_visited (keep : String → Bool) :
    ∀ fs : Fields, ∀ p ∈ (fs.visited keep).toList, keep p.1 = false → p.2.IsZero = true
  | .nil => by intro p hp; simp [Fields.visited, Fields.toList] at hp
  | .cons n v rest => by
    intro p hp hk
    simp only [Fields.visited, Fields.toList, List.mem_cons] at hp
    rcases hp with hp | hp
    · subst hp
      simp only at hk ⊢
      simp [hk, Value.isZero_zeroOf]
    · exact Fields.isZero_of_mem_visited keep rest p hp hk

theorem reduced_assign_userKept (fs : Fields) : ReducedToIdAndLogin fs (fs.assign userKept) := by
  refine ⟨Fields.names_assign _ fs, ?_, ?_, ?_⟩
  · rw [Fields.get?_assign]; simp [userKept]
  · rw [Fields.get?_assign]; simp [userKept]
  · intro p hp h1 h2
    exact Fields.isZero_of_mem_assign userKept fs p hp (by simp [userKept, h1, h2])

theorem reduced_assign_organisationKept (fs : Fields) :
    ReducedToIdAndLogin fs (fs.assign organisationKept) :=
  reduced_assign_userKept fs

theorem simplifyRepository_some (fs : Fields) :
    simplifyRepository (some fs) = .ok (some (fs.visited repositoryKept)) := by
  have h := visitFields_eq_generic_assign repositoryKept fs
  rw [visitFields_eq] at h
  simp only [simplifyRepository, ← h]

/-- C6. The sanitizer is idempotent: `simplifyObject` succeeds on every record,
and run again on its own result it succeeds and leaves that result unchanged,
whatever pull-request, user, organization and repository values are nested in
the record. -/
theorem sanitizer_idempotent (r : Value) :
    ∃ r', simplifyObject r = .ok r' ∧ simplifyObject r' = .ok r' :=
  ⟨r.simplified, simplifyObject_eq r, by
    rw [simplifyObject_eq, Value.simplified_simplified]⟩

/-- C7. When the field `field` (the creator) of a fetched record holds a non-nil
user, then after `simplifyObject` the field holds a user with the same id and
login and every other field zero; `simplifyOrganisation` does the same to every
non-nil organization, also when `simplifyObject` meets one. -/
theorem actor_reduced_to_id_and_login (name field : String) (fs ufs : Fields)
    (h : fs.get? field = some (.pointer (.struct .User ufs))) :
    (∃ fs' ufs', simplifyObject (.pointer (.struct (.other name) fs)) =
        .ok (.pointer (.struct (.other name) fs')) ∧
      fs'.get? field = some (.pointer (.struct .User ufs')) ∧
      ReducedToIdAndLogin ufs ufs') ∧
    (∀ ofs, ∃ ofs', simplifyOrganisation (some ofs) = .ok (some ofs') ∧
      simplifyObject (.struct .Organization ofs) = .ok (.struct .Organization ofs') ∧
      ReducedToIdAndLogin ofs ofs') := by
  refine ⟨⟨fs.visited allKept, ufs.assign userKept, ?_, ?_, reduced_assign_userKept ufs⟩, ?_⟩
  · rw [simplifyObject_eq]; rfl
  · rw [Fields.get?_visited, h]
    simp [allKept, Value.IsZero, Value.simplified]
  · intro ofs
    exact ⟨ofs.assign organisationKept, rfl, by rw [simplifyObject_eq]; rfl,
      reduced_assign_organisationKept ofs⟩

/-- Witness for C7: the creator `{id 7, login alice, email, ...}` of a record
comes out as `{id 7, login alice}`. -/
theorem actor_reduced_to_id_and_login_witness :
    sampleDeployment.get? "Creator" = some (.pointer (.struct .User sampleUser)) ∧
    (∃ fs', simplifyObject (.pointer (.struct (.other "Deployment") sampleDeployment)) =
        .ok (.pointer (.struct (.other "Deployment") fs')) ∧
      fs'.get? "Creator" = some (.pointer (.struct .User sampleUserReduced))) ∧
    ∃ fs' ufs', simplifyObject (.pointer (.struct (.other "Deployment") sampleDeployment)) =
        .ok (.pointer (.struct (.other "Deployment") fs')) ∧
      fs'.get? "Creator" = some (.pointer (.struct .User ufs')) ∧
      ReducedToIdAndLogin sampleUser ufs' :=
  ⟨rfl, ⟨_, rfl, rfl⟩,
    (actor_reduced_to_id_and_login "Deployment" "Creator" sampleDeployment sampleUser rfl).1⟩

/-- C8. For a non-nil repository whose `ID`, `Name` and `FullName` have the
types `*int64`, `*string` and `*string`, `simplifyRepository` leaves a
repository with the same `ID`, `Name` and `FullName`, with the owner (a `*User`)
cut down to its id and login (a nil owner stays nil), and with every other
field zero; `simplifyObject` does the same when it meets a repository. -/
theorem repository_reduced (fs : Fields)
    (hID : ∀ v, fs.get? "ID" = some v → v = .nilPointer ∨ ∃ i, v = .pointer (.int i))
    (hName : ∀ v, fs.get? "Name" = some v → v = .nilPointer ∨ ∃ s, v = .pointer (.string s))
    (hFullName : ∀ v, fs.get? "FullName" = some v →
      v = .nilPointer ∨ ∃ s, v = .pointer (.string s)) :
    ∃ fs', simplifyRepository (some fs) = .ok (some fs') ∧
      simplifyObject (.struct .Repository fs) = .ok (.struct .Repository fs') ∧
      fs'.names = fs.names ∧
      fs'.get? "ID" = fs.get? "ID" ∧ fs'.get? "Name" = fs.get? "Name" ∧
      fs'.get? "FullName" = fs.get? "FullName" ∧
      (fs.get? "Owner" = none → fs'.get? "Owner" = none) ∧
      (fs.get? "Owner" = some .nilPointer → fs'.get? "Owner" = some .nilPointer) ∧
      (∀ ufs, fs.get? "Owner" = some (.pointer (.struct .User ufs)) →
        ∃ ufs', fs'.get? "Owner" = some (.pointer (.struct .User ufs')) ∧
          ReducedToIdAndLogin ufs ufs') ∧
      ∀ p ∈ fs'.toList, p.1 ≠ "ID" → p.1 ≠ "Owner" → p.1 ≠ "Name" → p.1 ≠ "FullName" →
        p.2.IsZero = true := by
  have hrepo := simplifyRepository_some fs
  have hleaf : ∀ name : String, repositoryKept name = true →
      (∀ v, fs.get? name = some v →
        v = .nilPointer ∨ (∃ i, v = .pointer (.int i)) ∨ ∃ s, v = .pointer (.string s)) →
      (fs.visited repositoryKept).get? name = fs.get? name := by
    intro name hk hty
    rw [Fields.get?_visited]
    rcases hg : fs.get? name with _ | v
    · rfl
    · rcases hty v hg with h | ⟨i, h⟩ | ⟨s, h⟩ <;> subst h <;>
        simp [hk, Value.IsZero, Value.simplified]
  refine ⟨fs.visited repositoryKept, hrepo, by rw [simplifyObject_eq]; rfl,
    Fields.names_visited _ fs, ?_, ?_, ?_, ?_, ?_, ?_, ?_⟩
  · exact hleaf "ID" (by decide) (fun v hv => (hID v hv).elim Or.inl (fun h => Or.inr (Or.inl h)))
  · exact hleaf "Name" (by decide)
      (fun v hv => (hName v hv).elim Or.inl (fun h => Or.inr (Or.inr h)))
  · exact hleaf "FullName" (by decide)
      (fun v hv => (hFullName v hv).elim Or.inl (fun h => Or.inr (Or.inr h)))
  · intro h
    rw [Fields.get?_visited, h]; rfl
  · intro h
    rw [Fields.get?_visited, h]
    simp [Value.IsZero, Value.zeroOf]
  · intro ufs h
    refine ⟨ufs.assign userKept, ?_, reduced_assign_userKept ufs⟩
    rw [Fields.get?_visited, h]
    have hk : repositoryKept "Owner" = true := by decide
    simp [hk, Value.IsZero, Value.simplified]
  · intro p hp h1 h2 h3 h4
    exact Fields.isZero_of_mem_visited repositoryKept fs p hp
      (by simp [repositoryKept, h1, h2, h3, h4])

/-- Witness for C8: the sample repository keeps id, name and full name, its
owner keeps id and login, the rest is zero. -/
theorem repository_reduced_witness :
    simplifyRepository (some sampleRepository) = .ok (some
      (.cons "ID" (.pointer (.int 42))
        (.cons "NodeID" .nilPointer
          (.cons "Owner" (.pointer (.struct .User sampleUserReduced))
            (.cons "Name" (.pointer (.string "template-controller"))
              (.cons "FullName" (.pointer (.string "kluctl/template-controller"))
                (.cons "Organization" .nilPointer
                  (.cons "Topics" .nilSlice .nil)))))))) ∧
    ∃ fs', simplifyRepository (some sampleRepository) = .ok (some fs') ∧
      fs'.get? "ID" = sampleRepository.get? "ID" ∧
      ∀ p ∈ fs'.toList, p.1 ≠ "ID" → p.1 ≠ "Owner" → p.1 ≠ "Name" → p.1 ≠ "FullName" →
        p.2.IsZero = true := by
  refine ⟨rfl, ?_⟩
  obtain ⟨fs', h1, _, _, h4, _, _, _, _, _, h10⟩ := repository_reduced sampleRepository
    (by intro v hv; cases hv; exact Or.inr ⟨42, rfl⟩)
    (by intro v hv; cases hv; exact Or.inr ⟨_, rfl⟩)
    (by intro v hv; cases hv; exact Or.inr ⟨_, rfl⟩)
  exact ⟨fs', h1, h4, h10⟩

/-- C9. The sanitizer is total: `simplifyObject`, `simplifyObjectGeneric`,
`simplifyPullRequest`, `simplifyUser`, `simplifyOrganisation` and
`simplifyRepository` return no error on any input, and a nil reference, at the
top or in a field of a record, is left as it is. -/
theorem sanitizer_total :
    (∀ v, ∃ v', simplifyObject v = .ok v') ∧
    (∀ fs, ∃ fs', simplifyObjectGeneric fs = .ok fs') ∧
    (∀ fs, ∃ fs', simplifyPullRequest fs = .ok fs') ∧
    (∀ x, ∃ x', simplifyUser x = .ok x') ∧
    (∀ x, ∃ x', simplifyOrganisation x = .ok x') ∧
    (∀ x, ∃ x', simplifyRepository x = .ok x') ∧
    simplifyObject .nilPointer = .ok .nilPointer ∧
    simplifyUser none = .ok none ∧
    simplifyOrganisation none = .ok none ∧
    simplifyRepository none = .ok none ∧
    (∀ name field fs, fs.get? field = some .nilPointer →
      ∃ fs', simplifyObject (.pointer (.struct (.other name) fs)) =
          .ok (.pointer (.struct (.other name) fs')) ∧
        fs'.get? field = some .nilPointer) := by
  refine ⟨fun v => ⟨_, simplifyObject_eq v⟩, fun fs => ⟨_, visitFields_eq allKept fs⟩,
    fun fs => ⟨_, visitFields_eq allKept _⟩, ?_, ?_, ?_, rfl, rfl, rfl, rfl, ?_⟩
  · intro x; cases x <;> exact ⟨_, rfl⟩
  · intro x; cases x <;> exact ⟨_, rfl⟩
  · intro x
    cases x with
    | none => exact ⟨_, rfl⟩
    | some fs =>
      exact ⟨_, simplifyRepository_some fs⟩
  · intro name field fs h
    refine ⟨fs.visited allKept, by rw [simplifyObject_eq]; rfl, ?_⟩
    rw [Fields.get?_visited, h]
    simp [Value.IsZero, Value.zeroOf]

theorem idBelow_of_pairwise (out : List Value)
    (hids : ∀ r ∈ out, (deploymentID r).isSome = true)
    (hnodup : (out.map deploymentID).Nodup)
    (hsorted : out.Pairwise (fun a b => lessByID b a = false)) :
    out.Pairwise idBelow := by
  have hne : out.Pairwise (fun a b => deploymentID a ≠ deploymentID b) :=
    (List.pairwise_map).1 hnodup
  refine (hsorted.and hne).imp_of_mem ?_
  intro a b ha hb hab
  obtain ⟨h1, h2⟩ := hab
  obtain ⟨i, hi⟩ := Option.isSome_iff_exists.1 (hids a ha)
  obtain ⟨j, hj⟩ := Option.isSome_iff_exists.1 (hids b hb)
  refine ⟨i, j, hi, hj, ?_⟩
  simp only [lessByID, hi, hj, decide_eq_false_iff_not, not_lt] at h1
  have hij : i ≠ j := by
    intro h
    apply h2
    rw [hi, hj, h]
  omega

theorem eq_of_perm_of_idBelow (l₁ l₂ : List Value) (hp : l₁.Perm l₂)
    (h₁ : l₁.Pairwise idBelow) (h₂ : l₂.Pairwise idBelow) : l₁ = l₂ := by
  haveI : IsAntisymm Value idBelow := ⟨by
    rintro a b ⟨i, j, hi, hj, hij⟩ ⟨j', i', hj', hi', hji⟩
    rw [hi] at hi'
    rw [hj] at hj'
    simp only [Option.some.injEq] at hi' hj'
    omega⟩
  exact List.eq_of_perm_of_sorted hp h₁ h₂

theorem orderStep_sorted (sortSlice : (Value → Value → Bool) → List Value → List Value)
    (hsort : SortsBy sortSlice lessByID) (xs : List Value)
    (hids : ∀ r ∈ xs, (deploymentID r).isSome = true)
    (hnodup : (xs.map deploymentID).Nodup) :
    ∃ out, orderStep sortSlice xs = some out ∧ out.Perm xs ∧ out.Pairwise idBelow := by
  unfold orderStep
  by_cases hlen : xs.length < 2
  · rw [if_pos hlen]
    refine ⟨xs, rfl, List.Perm.refl _, ?_⟩
    match xs, hlen with
    | [], _ => exact List.Pairwise.nil
    | [a], _ => exact List.pairwise_singleton _ _
    | _ :: _ :: _, h => simp at h; omega
  · rw [if_neg hlen]
    have hall : xs.all (fun r => (deploymentID r).isSome) = true := by
      rw [List.all_eq_true]
      exact hids
    rw [if_pos hall]
    obtain ⟨hperm, hpair⟩ := hsort xs
    refine ⟨_, rfl, hperm, ?_⟩
    apply idBelow_of_pairwise _ _ _ hpair
    · intro r hr
      exact hids r (hperm.mem_iff.1 hr)
    · exact (hperm.map deploymentID).nodup_iff.2 hnodup

/-- C5. For fetched records whose ids are present and pairwise distinct, and any
`sort.Slice` that meets its contract, the ordering step gives one and the same
sequence for every permutation of the records: a permutation of them whose ids
go up strictly. -/
theorem order_is_deterministic
    (sortSlice : (Value → Value → Bool) → List Value → List Value)
    (hsort : SortsBy sortSlice lessByID) (xs ys : List Value)
    (hids : ∀ r ∈ xs, (deploymentID r).isSome = true)
    (hnodup : (xs.map deploymentID).Nodup) (hperm : ys.Perm xs) :
    ∃ out, orderStep sortSlice xs = some out ∧ orderStep sortSlice ys = some out ∧
      out.Perm xs ∧ out.Pairwise idBelow := by
  obtain ⟨out, h1, h2, h3⟩ := orderStep_sorted sortSlice hsort xs hids hnodup
  obtain ⟨out', h1', h2', h3'⟩ := orderStep_sorted sortSlice hsort ys
    (fun r hr => hids r (hperm.mem_iff.1 hr))
    ((hperm.map deploymentID).nodup_iff.2 hnodup)
  have heq : out' = out := eq_of_perm_of_idBelow out' out (h2'.trans (hperm.trans h2.symm)) h3' h3
  rw [heq] at h1'
  exact ⟨out, h1, h1', h2, h3⟩

/-- Witness for C5: the ids 3, 1, 2 and 2, 3, 1 both come out as 1, 2, 3. -/
theorem order_is_deterministic_witness :
    orderStep insertionSort [sampleRecord 3, sampleRecord 1, sampleRecord 2] =
      some [sampleRecord 1, sampleRecord 2, sampleRecord 3] ∧
    ∃ out, orderStep insertionSort [sampleRecord 3, sampleRecord 1, sampleRecord 2] = some out ∧
      orderStep insertionSort [sampleRecord 2, sampleRecord 3, sampleRecord 1] = some out ∧
      out.Perm [sampleRecord 3, sampleRecord 1, sampleRecord 2] ∧ out.Pairwise idBelow :=
  ⟨rfl, order_is_deterministic insertionSort insertionSort_sortsBy
    [sampleRecord 3, sampleRecord 1, sampleRecord 2]
    [sampleRecord 2, sampleRecord 3, sampleRecord 1]
    (by decide) (by decide)
    ((List.Perm.swap (sampleRecord 3) (sampleRecord 2) [sampleRecord 1]).trans
      (List.Perm.cons (sampleRecord 3)
        (List.Perm.swap (sampleRecord 1) (sampleRecord 2) [])))⟩

/-- C10 fails on the code. Whatever the object, once one of the optional filters
`environment`, `sha`, `ref` or `task` is nil, building the listing filter
dereferences it and the run panics before any remote call; no empty value is
passed on. The sample object without its `environment` shows it for
`doReconcile`. -/
theorem unset_filter_panics {σ : Type} (w : World σ) (s : σ) (obj : ListGithubDeployments)
    (token : String) :
    reconcileWithToken w s { obj with Spec := { obj.Spec with Environment := none } } token =
      .panicked s [] ∧
    reconcileWithToken w s { obj with Spec := { obj.Spec with Sha := none } } token =
      .panicked s [] ∧
    reconcileWithToken w s { obj with Spec := { obj.Spec with Ref := none } } token =
      .panicked s [] ∧
    reconcileWithToken w s { obj with Spec := { obj.Spec with Task := none } } token =
      .panicked s [] ∧
    doReconcile (sampleWorld fullPages) 0
        { sampleObject 100 with Spec := { (sampleObject 100).Spec with Environment := none } } =
      .panicked 0 [] ∧
    ∃ obj' s' cs, doReconcile (sampleWorld fullPages) 0 (sampleObject 100) =
      .returned none obj' s' cs := by
  refine ⟨rfl, ?_, ?_, ?_, rfl, _, _, _, rfl⟩
  · unfold reconcileWithToken
    simp only
    rcases obj.Spec.Environment with _ | e <;> rfl
  · unfold reconcileWithToken
    simp only
    rcases obj.Spec.Environment with _ | e <;> rcases obj.Spec.Sha with _ | e' <;> rfl
  · unfold reconcileWithToken
    simp only
    rcases obj.Spec.Environment with _ | e <;> rcases obj.Spec.Sha with _ | e' <;>
      rcases obj.Spec.Ref with _ | e'' <;> rfl

/-! ## Reconcile and the Ready condition -/

theorem reconcileWithToken_returned {σ : Type} (w : World σ) (s : σ)
    (obj : ListGithubDeployments) (token : String) (err : Option Error)
    (obj1 : ListGithubDeployments) (s' : σ) (calls : List Call)
    (h : reconcileWithToken w s obj token = .returned err obj1 s' calls) :
    ((∃ e, err = some e) ∧ obj1 = obj) ∨
    (err = none ∧ ∃ environment sha ref task result sorted newDeployments,
      paginationLoop (fun s o => w.ListDeployments token s obj.Spec.Owner obj.Spec.Repo o)
        obj.Spec.Limit (loopFuel obj.Spec.Limit) s ⟨sha, ref, task, environment, 1, 100⟩ [] [] =
        .done result s' calls ∧
      orderStep w.sortSlice result = some sorted ∧
      buildDeployments w.Marshal sorted [] = .ok newDeployments ∧
      obj1 = { obj with Status := { obj.Status with Deployments := newDeployments } }) := by
  rcases reconcileWithToken_cases w s obj token with ⟨hp, _⟩ |
    ⟨environment, sha, ref, task, _, _, _, _, hc⟩
  · rw [hp] at h; cases h
  · rw [hc] at h
    rcases hl : paginationLoop
      (fun s o => w.ListDeployments token s obj.Spec.Owner obj.Spec.Repo o)
      obj.Spec.Limit (loopFuel obj.Spec.Limit) s ⟨sha, ref, task, environment, 1, 100⟩ [] []
      with ⟨result, s1, cs⟩ | ⟨e1, s1, cs⟩ | ⟨s1, cs⟩
    · rw [hl] at h
      simp only at h
      rcases ho : orderStep w.sortSlice result with _ | sorted
      · rw [ho] at h; cases h
      · rw [ho] at h
        simp only at h
        rcases hb : buildDeployments w.Marshal sorted [] with e2 | newDeployments
        · rw [hb] at h
          cases h
          exact Or.inl ⟨⟨_, rfl⟩, rfl⟩
        · rw [hb] at h
          cases h
          exact Or.inr ⟨rfl, environment, sha, ref, task, result, sorted, newDeployments,
            hl, ho, hb, rfl⟩
    · rw [hl] at h
      cases h
      exact Or.inl ⟨⟨_, rfl⟩, rfl⟩
    · rw [hl] at h
      cases h

theorem reconcileWithToken_frame {σ : Type} (w : World σ) (s : σ) (obj : ListGithubDeployments)
    (token : String) (err : Option Error) (obj1 : ListGithubDeployments) (s' : σ)
    (calls : List Call) (h : reconcileWithToken w s obj token = .returned err obj1 s' calls) :
    obj1.Spec = obj.Spec ∧ obj1.Generation = obj.Generation ∧
      obj1.Namespace = obj.Namespace ∧ obj1.Status.Conditions = obj.Status.Conditions ∧
      (∀ e, err = some e → obj1 = obj) := by
  rcases reconcileWithToken_returned w s obj token err obj1 s' calls h with
    ⟨_, h1⟩ | ⟨h0, _, _, _, _, _, _, _, _, _, _, h1⟩
  · subst h1
    exact ⟨rfl, rfl, rfl, rfl, fun _ _ => rfl⟩
  · subst h1
    exact ⟨rfl, rfl, rfl, rfl, fun e he => by rw [h0] at he; cases he⟩

theorem doReconcile_frame {σ : Type} (w : World σ) (s : σ) (obj : ListGithubDeployments)
    (err : Option Error) (obj1 : ListGithubDeployments) (s' : σ) (calls : List Call)
    (h : doReconcile w s obj = .returned err obj1 s' calls) :
    obj1.Spec = obj.Spec ∧ obj1.Generation = obj.Generation ∧
      obj1.Namespace = obj.Namespace ∧ obj1.Status.Conditions = obj.Status.Conditions ∧
      (∀ e, err = some e → obj1 = obj) := by
  unfold doReconcile at h
  rcases hr : obj.Spec.TokenRef with _ | ref
  · simp only [hr] at h
    exact reconcileWithToken_frame w s obj "" err obj1 s' calls h
  · simp only [hr] at h
    rcases ht : w.GetSecretToken obj.Namespace ref with e | token
    · simp only [ht] at h
      cases h
      exact ⟨rfl, rfl, rfl, rfl, fun _ _ => rfl⟩
    · simp only [ht] at h
      exact reconcileWithToken_frame w s obj token err obj1 s' calls h

theorem find_setStatusCondition (newCondition : Condition) :
    ∀ conditions : List Condition,
      FindStatusCondition (SetStatusCondition conditions newCondition) newCondition.Type_ =
        some newCondition := by
  intro conditions
  induction conditions with
  | nil => simp [SetStatusCondition, FindStatusCondition]
  | cons c rest ih =>
    unfold SetStatusCondition
    by_cases h : c.Type_ = newCondition.Type_
    · rw [if_pos h]
      obtain ⟨t, st, g, r, m⟩ := c
      obtain ⟨t', st', g', r', m'⟩ := newCondition
      simp only at h
      subst h
      simp [FindStatusCondition]
    · rw [if_neg h]
      unfold FindStatusCondition at ih ⊢
      rw [List.find?_cons_of_neg _ (by simpa using h)]
      exact ih

theorem count_setStatusCondition (newCondition : Condition) :
    ∀ conditions : List Condition,
      (SetStatusCondition conditions newCondition).countP
          (fun c => c.Type_ = newCondition.Type_) =
        max 1 (conditions.countP (fun c => c.Type_ = newCondition.Type_)) := by
  intro conditions
  induction conditions with
  | nil => simp [SetStatusCondition]
  | cons c rest ih =>
    unfold SetStatusCondition
    by_cases h : c.Type_ = newCondition.Type_
    · rw [if_pos h]
      rw [List.countP_cons_of_pos _ _ (by simpa using h),
        List.countP_cons_of_pos _ _ (by simpa using h)]
      omega
    · rw [if_neg h]
      rw [List.countP_cons_of_neg _ _ (by simpa using h),
        List.countP_cons_of_neg _ _ (by simpa using h)]
      exact ih

theorem others_setStatusCondition (newCondition : Condition) :
    ∀ conditions : List Condition,
      (SetStatusCondition conditions newCondition).filter
          (fun c => c.Type_ ≠ newCondition.Type_) =
        conditions.filter (fun c => c.Type_ ≠ newCondition.Type_) := by
  intro conditions
  induction conditions with
  | nil => simp [SetStatusCondition]
  | cons c rest ih =>
    unfold SetStatusCondition
    by_cases h : c.Type_ = newCondition.Type_
    · rw [if_pos h]
      rw [List.filter_cons_of_neg (by simpa using h), List.filter_cons_of_neg (by simpa using h)]
    · rw [if_neg h]
      rw [List.filter_cons_of_pos (by simpa using h), List.filter_cons_of_pos (by simpa using h),
        ih]

theorem readyCondition_type (err : Option Error) (generation : Int) :
    (readyCondition err generation).Type_ = "Ready" := by
  cases err <;> rfl

theorem Reconcile_found {σ κ : Type} (w : World σ) (c : Client κ) (s : σ) (k : κ)
    (req : String) (obj : ListGithubDeployments) (err : Option Error)
    (obj1 : ListGithubDeployments) (s' : σ) (calls : List Call)
    (hget : c.Get k req = .ok obj) (hdo : doReconcile w s obj = .returned err obj1 s' calls) :
    Reconcile w c s k req =
      match c.StatusUpdate k (setReady err obj1) with
      | (some e, k') => .returned ⟨0⟩ (some e) (some (setReady err obj1)) s' k' calls
      | (none, k') =>
        .returned ⟨obj.Spec.Interval⟩ none (some (setReady err obj1)) s' k' calls := by
  unfold Reconcile
  simp only [hget, hdo]
  have hspec : (setReady err obj1).Spec = obj.Spec :=
    (doReconcile_frame w s obj err obj1 s' calls hdo).1
  rw [hspec]

/-- C11. After a pass of `Reconcile` that found the object and got `doReconcile`
back, the condition of type "Ready" in the status is: status False, reason
"Error" and the text of the error as message when `doReconcile` returned an
error; status True and reason "Success" when it returned none; in both cases
with the generation of the declared object as observed generation. -/
theorem ready_condition_reports_outcome {σ κ : Type} (w : World σ) (c : Client κ) (s : σ)
    (k : κ) (req : String) (obj : ListGithubDeployments) (err : Option Error)
    (obj1 : ListGithubDeployments) (s' : σ) (calls : List Call)
    (hget : c.Get k req = .ok obj) (hdo : doReconcile w s obj = .returned err obj1 s' calls) :
    ∃ result rerr obj2 k', Reconcile w c s k req =
        .returned result rerr (some obj2) s' k' calls ∧
      (∀ e, err = some e →
        FindStatusCondition obj2.Status.Conditions "Ready" =
          some ⟨"Ready", "False", obj.Generation, "Error", e⟩) ∧
      (err = none →
        FindStatusCondition obj2.Status.Conditions "Ready" =
          some ⟨"Ready", "True", obj.Generation, "Success", "Success"⟩) := by
  have hfound := Reconcile_found w c s k req obj err obj1 s' calls hget hdo
  have hgen : obj1.Generation = obj.Generation :=
    (doReconcile_frame w s obj err obj1 s' calls hdo).2.1
  have hfind : FindStatusCondition (setReady err obj1).Status.Conditions "Ready" =
      some (readyCondition err obj.Generation) := by
    have := find_setStatusCondition (readyCondition err obj1.Generation) obj1.Status.Conditions
    rw [readyCondition_type] at this
    rw [← hgen]
    exact this
  have hcond : (∀ e, err = some e →
        FindStatusCondition (setReady err obj1).Status.Conditions "Ready" =
          some ⟨"Ready", "False", obj.Generation, "Error", e⟩) ∧
      (err = none →
        FindStatusCondition (setReady err obj1).Status.Conditions "Ready" =
          some ⟨"Ready", "True", obj.Generation, "Success", "Success"⟩) := by
    refine ⟨?_, ?_⟩
    · intro e he; rw [hfind, he]; rfl
    · intro he; rw [hfind, he]; rfl
  rcases hu : c.StatusUpdate k (setReady err obj1) with ⟨uerr, k'⟩
  rw [hu] at hfound
  cases uerr with
  | none => exact ⟨_, _, _, _, hfound, hcond⟩
  | some e => exact ⟨_, _, _, _, hfound, hcond⟩

/-- Witness for C11: a pass whose second page fails, from a status without
conditions, leaves Ready False with reason Error and the text of the error. -/
theorem ready_condition_reports_outcome_witness :
    ∃ result rerr obj2 k', Reconcile (sampleWorld failsAfterFirstPage) storeClient 0
        (sampleObject 150) "default/sample" =
        .returned result rerr (some obj2) 100 k'
          [⟨⟨"", "main", "deploy", "prod", 1, 100⟩, .ok (sampleRecords 0 100)⟩,
            ⟨⟨"", "main", "deploy", "prod", 2, 50⟩, .error "502 Bad Gateway"⟩] ∧
      (∀ e, some "502 Bad Gateway" = some e →
        FindStatusCondition obj2.Status.Conditions "Ready" =
          some ⟨"Ready", "False", (sampleObject 150).Generation, "Error", e⟩) ∧
      ((some "502 Bad Gateway" : Option Error) = none →
        FindStatusCondition obj2.Status.Conditions "Ready" =
          some ⟨"Ready", "True", (sampleObject 150).Generation, "Success", "Success"⟩) :=
  ready_condition_reports_outcome (sampleWorld failsAfterFirstPage) storeClient 0
    (sampleObject 150) "default/sample" (sampleObject 150) (some "502 Bad Gateway")
    (sampleObject 150) 100 _ rfl rfl

theorem conditionsAfter_cons (p : Option Error × Int) (passes : List (Option Error × Int))
    (conditions : List Condition) :
    conditionsAfter (p :: passes) conditions =
      conditionsAfter passes (SetStatusCondition conditions (readyCondition p.1 p.2)) := rfl

theorem conditionsAfter_invariant :
    ∀ (passes : List (Option Error × Int)) (conditions : List Condition),
      conditions.countP (fun c => c.Type_ = "Ready") ≤ 1 →
      (conditionsAfter passes conditions).countP (fun c => c.Type_ = "Ready") =
          (if passes = [] then conditions.countP (fun c => c.Type_ = "Ready") else 1) ∧
        (conditionsAfter passes conditions).filter (fun c => c.Type_ ≠ "Ready") =
          conditions.filter (fun c => c.Type_ ≠ "Ready") := by
  intro passes
  induction passes with
  | nil => intro conditions _; exact ⟨rfl, rfl⟩
  | cons p ps ih =>
    intro conditions h
    have hc := count_setStatusCondition (readyCondition p.1 p.2) conditions
    have ho := others_setStatusCondition (readyCondition p.1 p.2) conditions
    rw [readyCondition_type] at hc ho
    have h1 : (SetStatusCondition conditions (readyCondition p.1 p.2)).countP
        (fun c => c.Type_ = "Ready") = 1 := by
      rw [hc]; omega
    obtain ⟨ih1, ih2⟩ := ih (SetStatusCondition conditions (readyCondition p.1 p.2))
      (by rw [h1])
    rw [conditionsAfter_cons]
    refine ⟨?_, by rw [ih2, ho]⟩
    rw [ih1, h1]
    simp

/-- C12. From a condition list with at most one entry of type "Ready", after any
run of `N >= 1` completed passes, each ending in success or in an error, the
list holds exactly one entry of type "Ready" and the entries of other types are
as they were. A completed pass of `Reconcile` is one step of such a run. -/
theorem ready_condition_stays_single (passes : List (Option Error × Int))
    (conditions : List Condition) (hN : 1 ≤ passes.length)
    (hstart : conditions.countP (fun c => c.Type_ = "Ready") ≤ 1) :
    (conditionsAfter passes conditions).countP (fun c => c.Type_ = "Ready") = 1 ∧
    (conditionsAfter passes conditions).filter (fun c => c.Type_ ≠ "Ready") =
      conditions.filter (fun c => c.Type_ ≠ "Ready") ∧
    (∀ (σ κ : Type) (w : World σ) (c : Client κ) (s : σ) (k : κ) (req : String)
      (obj : ListGithubDeployments) (err : Option Error) (obj1 : ListGithubDeployments)
      (s' : σ) (calls : List Call),
      c.Get k req = .ok obj → doReconcile w s obj = .returned err obj1 s' calls →
      ∃ result rerr obj2 k', Reconcile w c s k req =
          .returned result rerr (some obj2) s' k' calls ∧
        obj2.Status.Conditions =
          conditionsAfter [(err, obj.Generation)] obj.Status.Conditions) := by
  obtain ⟨h1, h2⟩ := conditionsAfter_invariant passes conditions hstart
  have hne : passes ≠ [] := by
    intro h; rw [h] at hN; simp at hN
  rw [if_neg hne] at h1
  refine ⟨h1, h2, ?_⟩
  intro σ κ w c s k req obj err obj1 s' calls hget hdo
  have hfound := Reconcile_found w c s k req obj err obj1 s' calls hget hdo
  obtain ⟨_, hgen, _, hconds, _⟩ := doReconcile_frame w s obj err obj1 s' calls hdo
  have hstep : (setReady err obj1).Status.Conditions =
      conditionsAfter [(err, obj.Generation)] obj.Status.Conditions := by
    show SetStatusCondition obj1.Status.Conditions (readyCondition err obj1.Generation) =
      SetStatusCondition obj.Status.Conditions (readyCondition err obj.Generation)
    rw [hgen, hconds]
  rcases hu : c.StatusUpdate k (setReady err obj1) with ⟨uerr, k'⟩
  rw [hu] at hfound
  cases uerr with
  | none => exact ⟨_, _, _, _, hfound, hstep⟩
  | some e => exact ⟨_, _, _, _, hfound, hstep⟩

/-- Witness for C12: a success, a failure and a success, from a list that holds
one condition of another type. -/
theorem ready_condition_stays_single_witness :
    conditionsAfter [(none, 1), (some "502 Bad Gateway", 1), (none, 2)]
        [⟨"Stalled", "False", 1, "Progressing", ""⟩] =
      [⟨"Stalled", "False", 1, "Progressing", ""⟩,
        ⟨"Ready", "True", 2, "Success", "Success"⟩] ∧
    (conditionsAfter [(none, 1), (some "502 Bad Gateway", 1), (none, 2)]
        [⟨"Stalled", "False", 1, "Progressing", ""⟩]).countP
      (fun c => c.Type_ = "Ready") = 1 :=
  ⟨by decide,
    (ready_condition_stays_single [(none, 1), (some "502 Bad Gateway", 1), (none, 2)]
      [⟨"Stalled", "False", 1, "Progressing", ""⟩] (by decide) (by decide)).1⟩

/-- C13. When the object is found, `doReconcile` gets back and the status is
persisted, `Reconcile` returns no error and a delay equal to the declared
interval, whether `doReconcile` returned an error or not. -/
theorem requeue_after_interval {σ κ : Type} (w : World σ) (c : Client κ) (s : σ) (k : κ)
    (req : String) (obj : ListGithubDeployments) (err : Option Error)
    (obj1 : ListGithubDeployments) (s' : σ) (calls : List Call) (k' : κ)
    (hget : c.Get k req = .ok obj) (hdo : doReconcile w s obj = .returned err obj1 s' calls)
    (hupdate : c.StatusUpdate k (setReady err obj1) = (none, k')) :
    Reconcile w c s k req =
      .returned ⟨obj.Spec.Interval⟩ none (some (setReady err obj1)) s' k' calls := by
  rw [Reconcile_found w c s k req obj err obj1 s' calls hget hdo, hupdate]

/-- Witness for C13: the pass that fails on its second page and the pass that
succeeds both come back with the interval of five minutes. -/
theorem requeue_after_interval_witness :
    (∃ obj2 s' k' calls, Reconcile (sampleWorld failsAfterFirstPage) storeClient 0
        (sampleObject 150) "default/sample" =
      .returned ⟨300000000000⟩ none (some obj2) s' k' calls) ∧
    (∃ obj2 s' k' calls, Reconcile (sampleWorld fullPages) storeClient 0
        (sampleObject 150) "default/sample" =
      .returned ⟨300000000000⟩ none (some obj2) s' k' calls) :=
  ⟨⟨_, _, _, _, requeue_after_interval (sampleWorld failsAfterFirstPage) storeClient 0
      (sampleObject 150) "default/sample" (sampleObject 150) (some "502 Bad Gateway")
      (sampleObject 150) 100 _ _ rfl rfl rfl⟩,
    ⟨_, _, _, _, requeue_after_interval (sampleWorld fullPages) storeClient 0
      (sampleObject 150) "default/sample" (sampleObject 150) none _ 150 _ _ rfl rfl rfl⟩⟩

/-! ## The trace of the loop and the status list -/

theorem fetchedRecords_append (xs ys : List Call) :
    fetchedRecords (xs ++ ys) = fetchedRecords xs ++ fetchedRecords ys := by
  induction xs with
  | nil => rfl
  | cons c cs ih =>
    show c.page ++ fetchedRecords (cs ++ ys) = (c.page ++ fetchedRecords cs) ++ fetchedRecords ys
    rw [ih, List.append_assoc]

theorem fetchedRecords_singleton (c : Call) : fetchedRecords [c] = c.page := by
  simp [fetchedRecords]

theorem snoc_eq_split (calls pre post : List Call) (cnew c : Call)
    (h : calls ++ [cnew] = pre ++ c :: post) :
    (post = [] ∧ pre = calls ∧ c = cnew) ∨
      ∃ post', post = post' ++ [cnew] ∧ calls = pre ++ c :: post' := by
  rcases List.eq_nil_or_concat post with hp | ⟨post', x, hp⟩
  · subst hp
    have h' : calls ++ [cnew] = pre ++ [c] := h
    obtain ⟨h1, h2⟩ := List.append_inj' h' rfl
    simp only [List.cons.injEq, and_true] at h2
    exact Or.inl ⟨rfl, h1.symm, h2.symm⟩
  · rw [List.concat_eq_append] at hp
    subst hp
    have h' : calls ++ [cnew] = (pre ++ c :: post') ++ [x] := by
      rw [h]; simp
    obtain ⟨h1, h2⟩ := List.append_inj' h' rfl
    simp only [List.cons.injEq, and_true] at h2
    subst h2
    exact Or.inr ⟨post', rfl, h1⟩

theorem paginationLoop_trace {σ : Type}
    (list : σ → DeploymentsListOptions → Except Error (List Value) × σ) (L : Int) :
    ∀ (fuel : Nat) (s : σ) (o : DeploymentsListOptions) (result : List Value) (calls : List Call),
      o.PerPage = 100 → o.Page = (calls.length : Int) + 1 → result = fetchedRecords calls →
      result.length = 100 * calls.length →
      (∀ pre c post, calls = pre ++ c :: post → AskedInTurn L pre c ∧ WentOn L pre c) →
      (∀ pre c post, (paginationLoop list L fuel s o result calls).calls = pre ++ c :: post →
        AskedInTurn L pre c ∧ (post ≠ [] → WentOn L pre c)) ∧
      (∀ r s' cs, paginationLoop list L fuel s o result calls = .done r s' cs →
        r = fetchedRecords cs) ∧
      (fuel ≠ 0 → calls.length < (paginationLoop list L fuel s o result calls).calls.length) := by
  intro fuel
  induction fuel with
  | zero =>
    intro s o result calls _ _ _ _ hpre
    refine ⟨?_, ?_, fun h => absurd rfl h⟩
    · intro pre c post h
      exact ⟨(hpre pre c post h).1, fun _ => (hpre pre c post h).2⟩
    · intro r s' cs h
      simp [paginationLoop] at h
  | succ n ih =>
    intro s o result calls hsize hpage hres hlen hpre
    rw [paginationLoop_succ]
    have hasked : ∀ reply, AskedInTurn L calls ⟨shrink L result o, reply⟩ := by
      intro reply
      refine ⟨by simp only [shrink_Page]; exact hpage, ?_⟩
      simp only
      rw [← hres]
      rcases shrink_PerPage L result o with ⟨h1, h2⟩ | ⟨h1, h2⟩
      · rw [h2]; omega
      · rw [h2]; omega
    have hstop : ∀ reply pre c post,
        calls ++ [(⟨shrink L result o, reply⟩ : Call)] = pre ++ c :: post →
        AskedInTurn L pre c ∧ (post ≠ [] → WentOn L pre c) := by
      intro reply pre c post h
      rcases snoc_eq_split calls pre post _ c h with ⟨h1, h2, h3⟩ | ⟨post', _, h2⟩
      · subst h1 h2 h3
        exact ⟨hasked reply, fun hne => absurd rfl hne⟩
      · exact ⟨(hpre pre c post' h2).1, fun _ => (hpre pre c post' h2).2⟩
    rcases hl : list s (shrink L result o) with ⟨rep, s1⟩
    cases rep with
    | error e =>
      refine ⟨hstop _, ?_, ?_⟩
      · intro r s' cs h; cases h
      · intro _; simp [LoopResult.calls]
    | ok page =>
      simp only
      by_cases hc : (page.length : Int) ≠ (shrink L result o).PerPage ∨
          ((result ++ page).length : Int) ≥ L
      · rw [if_pos hc]
        refine ⟨hstop _, ?_, ?_⟩
        · intro r s' cs h
          cases h
          rw [fetchedRecords_append, fetchedRecords_singleton, ← hres]
          rfl
        · intro _; simp [LoopResult.calls]
      · rw [if_neg hc]
        push_neg at hc
        obtain ⟨hc1, hc2⟩ := hc
        have hsame : shrink L result o = o := by
          rcases shrink_PerPage L result o with ⟨_, h2⟩ | ⟨_, h2⟩
          · rw [h2] at hc1
            simp only [List.length_append, Nat.cast_add] at hc2
            omega
          · exact h2
        rw [hsame] at hc1 ⊢
        have hfetched : fetchedRecords (calls ++ [(⟨o, Except.ok page⟩ : Call)]) =
            result ++ page := by
          rw [fetchedRecords_append, fetchedRecords_singleton, ← hres]
          rfl
        have hpl : page.length = 100 := by omega
        have hwent : WentOn L calls ⟨o, Except.ok page⟩ := by
          refine ⟨page, rfl, hc1, ?_, ?_⟩
          · rw [hfetched, List.length_append, hlen, hpl]; ring
          · rw [hfetched]; exact hc2
        obtain ⟨ih1, ih2, ih3⟩ := ih s1 { o with Page := o.Page + 1 } (result ++ page)
          (calls ++ [⟨o, Except.ok page⟩]) hsize
          (by simp only [List.length_append, List.length_cons, List.length_nil]
              push_cast; rw [hpage])
          hfetched.symm
          (by simp only [List.length_append, List.length_cons, List.length_nil, hlen, hpl]
              ring)
          (by
            intro pre c post h
            rcases snoc_eq_split calls pre post _ c h with ⟨h1, h2, h3⟩ | ⟨post', _, h2⟩
            · subst h1 h2 h3
              have := hasked (Except.ok page)
              rw [hsame] at this
              exact ⟨this, hwent⟩
            · exact hpre pre c post' h2)
        refine ⟨ih1, ih2, ?_⟩
        intro _
        by_cases hn : n = 0
        · subst hn
          simp [paginationLoop, LoopResult.calls]
        · have := ih3 hn
          simp only [List.length_append, List.length_cons, List.length_nil] at this
          omega

theorem paginationLoop_trace_start {σ : Type}
    (list : σ → DeploymentsListOptions → Except Error (List Value) × σ) (L : Int) (s : σ)
    (sha ref task environment : String) :
    (∀ pre c post,
      (paginationLoop list L (loopFuel L) s ⟨sha, ref, task, environment, 1, 100⟩ [] []).calls =
        pre ++ c :: post →
      AskedInTurn L pre c ∧ (post ≠ [] → WentOn L pre c)) ∧
    (∀ r s' cs,
      paginationLoop list L (loopFuel L) s ⟨sha, ref, task, environment, 1, 100⟩ [] [] =
        .done r s' cs → r = fetchedRecords cs) ∧
    0 < (paginationLoop list L (loopFuel L) s
      ⟨sha, ref, task, environment, 1, 100⟩ [] []).calls.length := by
  obtain ⟨h1, h2, h3⟩ := paginationLoop_trace list L (loopFuel L) s
    ⟨sha, ref, task, environment, 1, 100⟩ [] [] rfl rfl rfl rfl
    (by intro pre c post h; simp at h)
  exact ⟨h1, h2, h3 (by unfold loopFuel; omega)⟩

/-- C15. For every limit `L >= 1` and every remote, each call of the pagination
loop asks for the page after the calls before it (the first for page 1) and for
`min(100, L - fetchedSoFar)` records, which is between 1 and 100 and does not
take the count past `L`. -/
theorem requested_size_follows_limit {σ : Type}
    (list : σ → DeploymentsListOptions → Except Error (List Value) × σ) (L : Int)
    (hL : 1 ≤ L) (s : σ) (sha ref task environment : String) :
    (paginationLoop list L (loopFuel L) s ⟨sha, ref, task, environment, 1, 100⟩ [] []).calls
      ≠ [] ∧
    ∀ pre c post,
      (paginationLoop list L (loopFuel L) s ⟨sha, ref, task, environment, 1, 100⟩ [] []).calls =
        pre ++ c :: post →
      c.opts.Page = (pre.length : Int) + 1 ∧
      c.opts.PerPage = min 100 (L - ((fetchedRecords pre).length : Int)) ∧
      1 ≤ c.opts.PerPage ∧ c.opts.PerPage ≤ 100 ∧
      ((fetchedRecords pre).length : Int) + c.opts.PerPage ≤ L := by
  obtain ⟨h1, _, h3⟩ := paginationLoop_trace_start list L s sha ref task environment
  refine ⟨by intro h; rw [h] at h3; simp at h3, ?_⟩
  intro pre c post h
  obtain ⟨⟨hp, hs⟩, _⟩ := h1 pre c post h
  have hbelow : ((fetchedRecords pre).length : Int) < L := by
    rcases List.eq_nil_or_concat pre with hpre | ⟨pre', c', hpre⟩
    · subst hpre
      simp only [fetchedRecords, List.length_nil, Nat.cast_zero]
      omega
    · rw [List.concat_eq_append] at hpre
      subst hpre
      have h' : (paginationLoop list L (loopFuel L) s
          ⟨sha, ref, task, environment, 1, 100⟩ [] []).calls = pre' ++ c' :: (c :: post) := by
        rw [h]; simp
      obtain ⟨_, hw⟩ := h1 pre' c' (c :: post) h'
      obtain ⟨_, _, _, _, hlt⟩ := hw (by simp)
      exact hlt
  refine ⟨hp, hs, ?_, ?_, ?_⟩ <;> rw [hs] <;> omega

/-- Witness for C15: limit 150 against a remote with full pages; the second call
comes after 100 records and asks for 50. -/
theorem requested_size_follows_limit_witness :
    (paginationLoop fullPages 150 (loopFuel 150) 0 ⟨"", "main", "deploy", "prod", 1, 100⟩
      [] []).calls =
      [⟨⟨"", "main", "deploy", "prod", 1, 100⟩, .ok (sampleRecords 0 100)⟩] ++
      ⟨⟨"", "main", "deploy", "prod", 2, 50⟩, .ok (sampleRecords 100 50)⟩ :: [] ∧
    (50 : Int) = min 100 (150 - ((fetchedRecords
      [⟨⟨"", "main", "deploy", "prod", 1, 100⟩, .ok (sampleRecords 0 100)⟩]).length : Int)) :=
  ⟨rfl, ((requested_size_follows_limit fullPages 150 (by decide) 0 "" "main" "deploy" "prod").2
    [⟨⟨"", "main", "deploy", "prod", 1, 100⟩, .ok (sampleRecords 0 100)⟩]
    ⟨⟨"", "main", "deploy", "prod", 2, 50⟩, .ok (sampleRecords 100 50)⟩ [] rfl).2.1⟩

/-- C18. For every limit `L`, zero and negative ones too, and every remote, the
pagination loop ends, after at least one and at most `max(1, ceil(L/100))`
calls; every call but the last brought in a page of exactly the size asked for
and left the count below `L`. -/
theorem loop_ends_within_bound {σ : Type}
    (list : σ → DeploymentsListOptions → Except Error (List Value) × σ) (L : Int) (s : σ)
    (sha ref task environment : String) :
    (∀ s' cs,
      paginationLoop list L (loopFuel L) s ⟨sha, ref, task, environment, 1, 100⟩ [] [] ≠
        .outOfFuel s' cs) ∧
    1 ≤ (paginationLoop list L (loopFuel L) s
      ⟨sha, ref, task, environment, 1, 100⟩ [] []).calls.length ∧
    (paginationLoop list L (loopFuel L) s
      ⟨sha, ref, task, environment, 1, 100⟩ [] []).calls.length ≤ max 1 (expectedCallCount L) ∧
    ∀ pre c post,
      (paginationLoop list L (loopFuel L) s ⟨sha, ref, task, environment, 1, 100⟩ [] []).calls =
        pre ++ c :: post →
      post ≠ [] →
      ∃ page, c.reply = .ok page ∧ (page.length : Int) = c.opts.PerPage ∧
        ((fetchedRecords (pre ++ [c])).length : Int) < L := by
  obtain ⟨h1, _, h3⟩ := paginationLoop_trace_start list L s sha ref task environment
  refine ⟨paginationLoop_terminates list L (loopFuel L) s _ [] [] rfl (loopFuel_enough L),
    h3, ?_, ?_⟩
  · rcases List.eq_nil_or_concat (paginationLoop list L (loopFuel L) s
      ⟨sha, ref, task, environment, 1, 100⟩ [] []).calls with h0 | ⟨init, last, h0⟩
    · rw [h0] at h3; simp at h3
    · rw [List.concat_eq_append] at h0
      rcases List.eq_nil_or_concat init with hi | ⟨pre, c, hi⟩
      · subst hi
        rw [h0]
        simp
      · rw [List.concat_eq_append] at hi
        subst hi
        have h' : (paginationLoop list L (loopFuel L) s
            ⟨sha, ref, task, environment, 1, 100⟩ [] []).calls = pre ++ c :: [last] := by
          rw [h0]; simp
        obtain ⟨_, hw⟩ := h1 pre c [last] h'
        obtain ⟨_, _, _, hcount, hlt⟩ := hw (by simp)
        rw [h0]
        simp only [List.length_append, List.length_cons, List.length_nil]
        rw [hcount] at hlt
        unfold expectedCallCount
        have : (pre.length : Int) + 1 < (L + 99) / 100 + 1 := by
          push_cast at hlt
          omega
        omega
  · intro pre c post h hne
    obtain ⟨_, hw⟩ := h1 pre c post h
    obtain ⟨page, hr, hp, _, hlt⟩ := hw hne
    exact ⟨page, hr, hp, hlt⟩

theorem buildDeployments_entries (marshal : Value → Except Error RawExtension) :
    ∀ (xs : List Value) (acc out : List RawExtension),
      buildDeployments marshal xs acc = .ok out →
      ∃ new, out = acc ++ new ∧ List.Forall₂ (IsEntryOf marshal) xs new := by
  intro xs
  induction xs with
  | nil =>
    intro acc out h
    simp only [buildDeployments, Except.ok.injEq] at h
    exact ⟨[], by simp [h], List.Forall₂.nil⟩
  | cons pr rest ih =>
    intro acc out h
    simp only [buildDeployments] at h
    rcases hs : simplifyObject pr with e | pr'
    · rw [hs] at h; simp at h
    · rw [hs] at h
      simp only at h
      rcases hm : marshal pr' with e | j
      · rw [hm] at h; simp at h
      · rw [hm] at h
        simp only at h
        obtain ⟨new, h1, h2⟩ := ih _ _ h
        refine ⟨j :: new, by rw [h1]; simp, List.Forall₂.cons ⟨pr', hs, hm⟩ h2⟩

theorem orderStep_ordered (sortSlice : (Value → Value → Bool) → List Value → List Value)
    (hsort : SortsBy sortSlice lessByID) (result sorted : List Value)
    (h : orderStep sortSlice result = some sorted) :
    sorted.Perm result ∧ sorted.Pairwise idNotAbove := by
  have hweak : ∀ a b : Value, lessByID b a = false → idNotAbove a b := by
    intro a b hab i j hi hj
    simp only [lessByID, hi, hj, decide_eq_false_iff_not, not_lt] at hab
    exact hab
  unfold orderStep at h
  by_cases hlen : result.length < 2
  · rw [if_pos hlen] at h
    simp only [Option.some.injEq] at h
    subst h
    refine ⟨List.Perm.refl _, ?_⟩
    match result, hlen with
    | [], _ => exact List.Pairwise.nil
    | [a], _ => exact List.pairwise_singleton _ _
    | _ :: _ :: _, h => simp at h; omega
  · rw [if_neg hlen] at h
    split at h
    · simp only [Option.some.injEq] at h
      subst h
      exact ⟨(hsort result).1, (hsort result).2.imp (fun {a b} hab => hweak a b hab)⟩
    · simp at h

theorem reconcileWithToken_prior_eq {σ : Type} (w : World σ) (s : σ)
    (obj : ListGithubDeployments) (token : String) (prior : List RawExtension) :
    reconcileWithToken w s { obj with Status := { obj.Status with Deployments := prior } } token =
      match reconcileWithToken w s obj token with
      | .returned none o s' cs => .returned none o s' cs
      | .returned (some e) _ s' cs =>
        .returned (some e) { obj with Status := { obj.Status with Deployments := prior } } s' cs
      | .panicked s' cs => .panicked s' cs
      | .outOfFuel s' cs => .outOfFuel s' cs := by
  unfold reconcileWithToken
  simp only
  rcases obj.Spec.Environment with _ | environment
  · rfl
  rcases obj.Spec.Sha with _ | sha
  · rfl
  rcases obj.Spec.Ref with _ | ref
  · rfl
  rcases obj.Spec.Task with _ | task
  · rfl
  simp only
  rcases paginationLoop (fun s o => w.ListDeployments token s obj.Spec.Owner obj.Spec.Repo o)
      obj.Spec.Limit (loopFuel obj.Spec.Limit) s ⟨sha, ref, task, environment, 1, 100⟩ [] []
      with ⟨result, s1, calls⟩ | ⟨e1, s1, calls⟩ | ⟨s1, calls⟩
  · simp only
    rcases orderStep w.sortSlice result with _ | sorted
    · rfl
    · simp only
      rcases buildDeployments w.Marshal sorted [] with e2 | newDeployments <;> rfl
  · rfl
  · rfl

theorem doReconcile_prior {σ : Type} (w : World σ) (s : σ) (obj : ListGithubDeployments)
    (prior : List RawExtension) (obj' : ListGithubDeployments) (s' : σ) (cs : List Call)
    (h : doReconcile w s obj = .returned none obj' s' cs) :
    doReconcile w s { obj with Status := { obj.Status with Deployments := prior } } =
      .returned none obj' s' cs := by
  unfold doReconcile at h ⊢
  simp only at h ⊢
  rcases hr : obj.Spec.TokenRef with _ | ref
  · simp only [hr] at h ⊢
    rw [reconcileWithToken_prior_eq, h]
  · simp only [hr] at h ⊢
    rcases ht : w.GetSecretToken obj.Namespace ref with e | token
    · simp only [ht] at h
      cases h
    · simp only [ht] at h ⊢
      rw [reconcileWithToken_prior_eq, h]

theorem doReconcile_success {σ : Type} (w : World σ) (s : σ) (obj : ListGithubDeployments)
    (obj' : ListGithubDeployments) (s' : σ) (cs : List Call)
    (h : doReconcile w s obj = .returned none obj' s' cs) :
    ∃ token environment sha ref task result sorted newDeployments,
      paginationLoop (fun s o => w.ListDeployments token s obj.Spec.Owner obj.Spec.Repo o)
        obj.Spec.Limit (loopFuel obj.Spec.Limit) s ⟨sha, ref, task, environment, 1, 100⟩ [] [] =
        .done result s' cs ∧
      orderStep w.sortSlice result = some sorted ∧
      buildDeployments w.Marshal sorted [] = .ok newDeployments ∧
      obj' = { obj with Status := { obj.Status with Deployments := newDeployments } } := by
  have key : ∀ token, reconcileWithToken w s obj token = .returned none obj' s' cs →
      ∃ token environment sha ref task result sorted newDeployments,
      paginationLoop (fun s o => w.ListDeployments token s obj.Spec.Owner obj.Spec.Repo o)
        obj.Spec.Limit (loopFuel obj.Spec.Limit) s ⟨sha, ref, task, environment, 1, 100⟩ [] [] =
        .done result s' cs ∧
      orderStep w.sortSlice result = some sorted ∧
      buildDeployments w.Marshal sorted [] = .ok newDeployments ∧
      obj' = { obj with Status := { obj.Status with Deployments := newDeployments } } := by
    intro token ht
    rcases reconcileWithToken_returned w s obj token none obj' s' cs ht with
      ⟨⟨e, he⟩, _⟩ | ⟨_, environment, sha, ref, task, result, sorted, newDeployments, h1, h2, h3, h4⟩
    · cases he
    · exact ⟨token, environment, sha, ref, task, result, sorted, newDeployments, h1, h2, h3, h4⟩
  unfold doReconcile at h
  rcases hr : obj.Spec.TokenRef with _ | ref
  · simp only [hr] at h
    exact key "" h
  · simp only [hr] at h
    rcases ht : w.GetSecretToken obj.Namespace ref with e | token
    · simp only [ht] at h
      cases h
    · simp only [ht] at h
      exact key token h

/-- C14. Whatever `status.deployments` held before, a successful `doReconcile`
leaves in it one entry for each fetched record and nothing else: the records in
an order in which no id is above a later one, each sanitized and marshalled. The
prior list has no part in it. With 250 records on the remote side and limit 100
the list has 100 entries. -/
theorem status_is_replaced {σ : Type} (w : World σ) (s : σ) (obj obj' : ListGithubDeployments)
    (s' : σ) (cs : List Call) (hsort : SortsBy w.sortSlice lessByID)
    (h : doReconcile w s obj = .returned none obj' s' cs) :
    (∃ sorted, sorted.Perm (fetchedRecords cs) ∧ sorted.Pairwise idNotAbove ∧
      List.Forall₂ (IsEntryOf w.Marshal) sorted obj'.Status.Deployments) ∧
    obj'.Status.Deployments.length = (fetchedRecords cs).length ∧
    (∀ prior,
      doReconcile w s { obj with Status := { obj.Status with Deployments := prior } } =
        .returned none obj' s' cs) ∧
    (∃ obj2 s2 cs2,
      doReconcile (sampleWorld (pagedRemote (sampleRecords 0 250))) 0 (sampleObject 100) =
        .returned none obj2 s2 cs2 ∧
      obj2.Status.Deployments.length = 100) := by
  obtain ⟨token, environment, sha, ref, task, result, sorted, newDeployments, h1, h2, h3, h4⟩ :=
    doReconcile_success w s obj obj' s' cs h
  have hfetched : result = fetchedRecords cs :=
    (paginationLoop_trace_start _ obj.Spec.Limit s sha ref task environment).2.1 result s' cs h1
  obtain ⟨hperm, hpair⟩ := orderStep_ordered w.sortSlice hsort result sorted h2
  obtain ⟨new, hnew, hall⟩ := buildDeployments_entries w.Marshal sorted [] newDeployments h3
  simp only [List.nil_append] at hnew
  subst hnew
  have hdep : obj'.Status.Deployments = newDeployments := by rw [h4]
  rw [hdep]
  refine ⟨⟨sorted, by rw [← hfetched]; exact hperm, hpair, hall⟩, ?_,
    fun prior => doReconcile_prior w s obj prior obj' s' cs h, _, _, _, rfl, rfl⟩
  rw [← hall.length_eq, hperm.length_eq, hfetched]

/-- Witness for C14: three records from a remote with full pages replace the
stale entry of the sample object. -/
theorem status_is_replaced_witness :
    doReconcile (sampleWorld fullPages) 0 (sampleObject 3) =
      .returned none { sampleObject 3 with Status := ⟨[], [⟨"0"⟩, ⟨"1"⟩, ⟨"2"⟩]⟩ } 3
        [⟨⟨"", "main", "deploy", "prod", 1, 3⟩, .ok (sampleRecords 0 3)⟩] ∧
    ∀ prior,
      doReconcile (sampleWorld fullPages) 0
          { sampleObject 3 with Status := { (sampleObject 3).Status with Deployments := prior } } =
        .returned none { sampleObject 3 with Status := ⟨[], [⟨"0"⟩, ⟨"1"⟩, ⟨"2"⟩]⟩ } 3
          [⟨⟨"", "main", "deploy", "prod", 1, 3⟩, .ok (sampleRecords 0 3)⟩] :=
  ⟨rfl, (status_is_replaced (sampleWorld fullPages) 0 (sampleObject 3) _ 3 _
    insertionSort_sortsBy rfl).2.2.1⟩

/-! ## Ties, shrunk pages and what the sanitizer keeps -/

mutual
theorem Value.removedFrom_refl : ∀ v : Value, v.removedFrom v = true
  | .bool _ => by simp [Value.removedFrom]
  | .int _ => by simp [Value.removedFrom]
  | .string _ => by simp [Value.removedFrom]
  | .other _ => by simp [Value.removedFrom]
  | .nilPointer => by simp [Value.removedFrom]
  | .pointer e => by simp only [Value.removedFrom, Value.removedFrom_refl e]
  | .struct t fs => by simp [Value.removedFrom, Fields.removedFrom_refl_fields fs]
  | .nilSlice => by simp [Value.removedFrom]
  | .slice es => by simp only [Value.removedFrom, Values.removedFrom_refl_elems es]
theorem Fields.removedFrom_refl_fields : ∀ fs : Fields, fs.removedFrom fs = true
  | .nil => by simp [Fields.removedFrom]
  | .cons n v rest => by
    simp [Fields.removedFrom, Value.removedFrom_refl v, Fields.removedFrom_refl_fields rest]
theorem Values.removedFrom_refl_elems : ∀ es : Values, es.removedFrom es = true
  | .nil => by simp [Values.removedFrom]
  | .cons v rest => by
    simp [Values.removedFrom, Value.removedFrom_refl v, Values.removedFrom_refl_elems rest]
end

mutual
theorem Value.zeroOf_removedFrom : ∀ v : Value, v.zeroOf.removedFrom v = true
  | .bool _ => by simp [Value.removedFrom, Value.zeroOf]
  | .int _ => by simp [Value.removedFrom, Value.zeroOf]
  | .string _ => by simp [Value.removedFrom, Value.zeroOf]
  | .other _ => by simp [Value.removedFrom, Value.zeroOf]
  | .nilPointer => by simp [Value.removedFrom, Value.zeroOf]
  | .pointer _ => by simp [Value.removedFrom, Value.zeroOf]
  | .struct t fs => by simp [Value.removedFrom, Value.zeroOf, Fields.zeroOf_removedFrom_fields fs]
  | .nilSlice => by simp [Value.removedFrom, Value.zeroOf]
  | .slice _ => by simp [Value.removedFrom, Value.zeroOf]
theorem Fields.zeroOf_removedFrom_fields : ∀ fs : Fields, fs.zeroOf.removedFrom fs = true
  | .nil => by simp [Fields.removedFrom, Fields.zeroOf]
  | .cons n v rest => by
    simp [Fields.removedFrom, Fields.zeroOf, Value.zeroOf_removedFrom v,
      Fields.zeroOf_removedFrom_fields rest]
end

theorem Fields.assign_removedFrom (keep : String → Bool) :
    ∀ fs : Fields, (fs.assign keep).removedFrom fs = true
  | .nil => by simp [Fields.removedFrom, Fields.assign]
  | .cons n v rest => by
    simp only [Fields.assign, Fields.removedFrom, Fields.assign_removedFrom keep rest]
    by_cases hk : keep n = true
    · simp [hk, Value.removedFrom_refl]
    · simp [hk, Value.zeroOf_removedFrom]

mutual
theorem Value.simplified_removedFrom : ∀ v : Value, v.simplified.removedFrom v = true
  | .bool _ => by simp [Value.removedFrom, Value.simplified]
  | .int _ => by simp [Value.removedFrom, Value.simplified]
  | .string _ => by simp [Value.removedFrom, Value.simplified]
  | .other _ => by simp [Value.removedFrom, Value.simplified]
  | .nilPointer => by simp [Value.removedFrom, Value.simplified]
  | .pointer e => by simp only [Value.removedFrom, Value.simplified, Value.simplified_removedFrom e]
  | .struct .PullRequest fs => by
    simp [Value.removedFrom, Value.simplified, Fields.visited_removedFrom pullRequestKept fs]
  | .struct .User fs => by
    simp [Value.removedFrom, Value.simplified, Fields.assign_removedFrom]
  | .struct .Organization fs => by
    simp [Value.removedFrom, Value.simplified, Fields.assign_removedFrom]
  | .struct .Repository fs => by
    simp [Value.removedFrom, Value.simplified, Fields.visited_removedFrom repositoryKept fs]
  | .struct (.other name) fs => by
    simp [Value.removedFrom, Value.simplified, Fields.visited_removedFrom allKept fs]
  | .nilSlice => by simp [Value.removedFrom, Value.simplified]
  | .slice es => by
    simp only [Value.removedFrom, Value.simplified, Values.simplified_removedFrom_elems es]
theorem Fields.visited_removedFrom (keep : String → Bool) :
    ∀ fs : Fields, (fs.visited keep).removedFrom fs = true
  | .nil => by simp [Fields.removedFrom, Fields.visited]
  | .cons n v rest => by
    simp only [Fields.visited, Fields.removedFrom, Fields.visited_removedFrom keep rest]
    by_cases hk : keep n = true
    · by_cases hz : v.IsZero = true
      · simp [hk, hz, Value.removedFrom_refl]
      · simp [hk, hz, Value.simplified_removedFrom v]
    · simp [hk, Value.zeroOf_removedFrom]
theorem Values.simplified_removedFrom_elems : ∀ es : Values, es.simplified.removedFrom es = true
  | .nil => by simp [Values.removedFrom, Values.simplified]
  | .cons v rest => by
    simp [Values.removedFrom, Values.simplified, Value.simplified_removedFrom v,
      Values.simplified_removedFrom_elems rest]
end

mutual
theorem Value.sameOutside_refl : ∀ v : Value, v.sameOutside v = true
  | .bool _ => by simp [Value.sameOutside]
  | .int _ => by simp [Value.sameOutside]
  | .string _ => by simp [Value.sameOutside]
  | .other _ => by simp [Value.sameOutside]
  | .nilPointer => by simp [Value.sameOutside]
  | .pointer e => by simp only [Value.sameOutside, Value.sameOutside_refl e]
  | .struct .PullRequest _ => by simp [Value.sameOutside]
  | .struct .User _ => by simp [Value.sameOutside]
  | .struct .Organization _ => by simp [Value.sameOutside]
  | .struct .Repository _ => by simp [Value.sameOutside]
  | .struct (.other name) fs => by simp [Value.sameOutside, Fields.sameOutside_refl_fields fs]
  | .nilSlice => by simp [Value.sameOutside]
  | .slice es => by simp only [Value.sameOutside, Values.sameOutside_refl_elems es]
theorem Fields.sameOutside_refl_fields : ∀ fs : Fields, fs.sameOutside fs = true
  | .nil => by simp [Fields.sameOutside]
  | .cons n v rest => by
    simp [Fields.sameOutside, Value.sameOutside_refl v, Fields.sameOutside_refl_fields rest]
theorem Values.sameOutside_refl_elems : ∀ es : Values, es.sameOutside es = true
  | .nil => by simp [Values.sameOutside]
  | .cons v rest => by
    simp [Values.sameOutside, Value.sameOutside_refl v, Values.sameOutside_refl_elems rest]
end

mutual
theorem Value.sameOutside_simplified : ∀ v : Value, v.sameOutside v.simplified = true
  | .bool _ => by simp [Value.sameOutside, Value.simplified]
  | .int _ => by simp [Value.sameOutside, Value.simplified]
  | .string _ => by simp [Value.sameOutside, Value.simplified]
  | .other _ => by simp [Value.sameOutside, Value.simplified]
  | .nilPointer => by simp [Value.sameOutside, Value.simplified]
  | .pointer e => by
    simp only [Value.sameOutside, Value.simplified, Value.sameOutside_simplified e]
  | .struct .PullRequest _ => by simp [Value.sameOutside, Value.simplified]
  | .struct .User _ => by simp [Value.sameOutside, Value.simplified]
  | .struct .Organization _ => by simp [Value.sameOutside, Value.simplified]
  | .struct .Repository _ => by simp [Value.sameOutside, Value.simplified]
  | .struct (.other name) fs => by
    simp [Value.sameOutside, Value.simplified, Fields.sameOutside_visited fs]
  | .nilSlice => by simp [Value.sameOutside, Value.simplified]
  | .slice es => by
    simp only [Value.sameOutside, Value.simplified, Values.sameOutside_simplified_elems es]
theorem Fields.sameOutside_visited : ∀ fs : Fields, fs.sameOutside (fs.visited allKept) = true
  | .nil => by simp [Fields.sameOutside, Fields.visited]
  | .cons n v rest => by
    simp only [Fields.visited, Fields.sameOutside, Fields.sameOutside_visited rest, allKept]
    by_cases hz : v.IsZero = true
    · simp [hz, Value.sameOutside_refl]
    · simp [hz, Value.sameOutside_simplified v]
theorem Values.sameOutside_simplified_elems : ∀ es : Values, es.sameOutside es.simplified = true
  | .nil => by simp [Values.sameOutside, Values.simplified]
  | .cons v rest => by
    simp [Values.sameOutside, Values.simplified, Value.sameOutside_simplified v,
      Values.sameOutside_simplified_elems rest]
end

mutual
theorem Value.simplified_of_plain : ∀ v : Value, v.hasSpecial = false → v.simplified = v
  | .bool _, _ => by simp [Value.simplified]
  | .int _, _ => by simp [Value.simplified]
  | .string _, _ => by simp [Value.simplified]
  | .other _, _ => by simp [Value.simplified]
  | .nilPointer, _ => by simp [Value.simplified]
  | .pointer e, h => by
    simp only [Value.hasSpecial] at h
    simp only [Value.simplified, Value.simplified_of_plain e h]
  | .struct .PullRequest _, h => by simp [Value.hasSpecial] at h
  | .struct .User _, h => by simp [Value.hasSpecial] at h
  | .struct .Organization _, h => by simp [Value.hasSpecial] at h
  | .struct .Repository _, h => by simp [Value.hasSpecial] at h
  | .struct (.other name) fs, h => by
    simp only [Value.hasSpecial] at h
    simp only [Value.simplified, Fields.visited_of_plain fs h]
  | .nilSlice, _ => by simp [Value.simplified]
  | .slice es, h => by
    simp only [Value.hasSpecial] at h
    simp only [Value.simplified, Values.simplified_of_plain_elems es h]
theorem Fields.visited_of_plain : ∀ fs : Fields, fs.hasSpecial = false →
    fs.visited allKept = fs
  | .nil, _ => by simp [Fields.visited]
  | .cons n v rest, h => by
    simp only [Fields.hasSpecial, Bool.or_eq_false_iff] at h
    simp only [Fields.visited, Fields.visited_of_plain rest h.2, allKept,
      Value.simplified_of_plain v h.1]
    simp
theorem Values.simplified_of_plain_elems : ∀ es : Values, es.hasSpecial = false →
    es.simplified = es
  | .nil, _ => by simp [Values.simplified]
  | .cons v rest, h => by
    simp only [Values.hasSpecial, Bool.or_eq_false_iff] at h
    simp only [Values.simplified, Value.simplified_of_plain v h.1,
      Values.simplified_of_plain_elems rest h.2]
end

/-- C19. The sanitizer only removes information. For every record `r`,
`simplifyObject` gives a record that is the same as `r` outside the
pull-request, user, organization and repository structs in it, and in which
every leaf is as in `r` or zero, every pointer as in `r` or nil, every slice as
in `r` or nil; a record without any such struct is left as it is. -/
theorem sanitizer_only_removes (r : Value) :
    ∃ r', simplifyObject r = .ok r' ∧ r.sameOutside r' = true ∧ r'.removedFrom r = true ∧
      (r.hasSpecial = false → r' = r) :=
  ⟨r.simplified, simplifyObject_eq r, Value.sameOutside_simplified r,
    Value.simplified_removedFrom r, Value.simplified_of_plain r⟩

/-- C16 (amended). For every list of fetched records with present ids, also
with repeated ids, and any `sort.Slice` that meets its contract, the ordering
step does not panic and gives a permutation of the records in which no id is
above a later one. Nothing is promised on the order of records with equal
ids. -/
theorem order_is_ascending
    (sortSlice : (Value → Value → Bool) → List Value → List Value)
    (hsort : SortsBy sortSlice lessByID) (xs : List Value)
    (hids : ∀ r ∈ xs, (deploymentID r).isSome = true) :
    ∃ out, orderStep sortSlice xs = some out ∧ out.Perm xs ∧ out.Pairwise idNotAbove ∧
      ∀ r ∈ out, (deploymentID r).isSome = true := by
  have hsome : ∃ out, orderStep sortSlice xs = some out := by
    unfold orderStep
    by_cases hlen : xs.length < 2
    · rw [if_pos hlen]; exact ⟨_, rfl⟩
    · rw [if_neg hlen]
      have hall : xs.all (fun r => (deploymentID r).isSome) = true := by
        rw [List.all_eq_true]
        exact hids
      rw [if_pos hall]; exact ⟨_, rfl⟩
  obtain ⟨out, hout⟩ := hsome
  obtain ⟨hperm, hpair⟩ := orderStep_ordered sortSlice hsort xs out hout
  exact ⟨out, hout, hperm, hpair, fun r hr => hids r (hperm.mem_iff.1 hr)⟩

/-- Witness for C16 (amended): two records with id 5 around one with id 3. -/
theorem order_is_ascending_witness :
    orderStep insertionSort [tiedFirst, sampleRecord 3, tiedSecond] =
      some [sampleRecord 3, tiedSecond, tiedFirst] ∧
    ∃ out, orderStep insertionSort [tiedFirst, sampleRecord 3, tiedSecond] = some out ∧
      out.Perm [tiedFirst, sampleRecord 3, tiedSecond] ∧ out.Pairwise idNotAbove ∧
      ∀ r ∈ out, (deploymentID r).isSome = true :=
  ⟨rfl, order_is_ascending insertionSort insertionSort_sortsBy
    [tiedFirst, sampleRecord 3, tiedSecond] (by decide)⟩

/-- C16 as stated fails: a `sort.Slice` that meets all that Go documents of it
may swap two records with the same id. -/
theorem order_is_not_stable :
    SortsBy insertionSort lessByID ∧
    deploymentID tiedFirst = some 5 ∧ deploymentID tiedSecond = some 5 ∧
    tiedFirst ≠ tiedSecond ∧
    orderStep insertionSort [tiedFirst, tiedSecond] = some [tiedSecond, tiedFirst] :=
  ⟨insertionSort_sortsBy, rfl, rfl, by decide, rfl⟩

/-- C17 fails on the code. With 250 records on the remote side and limit 150 the
second call asks for page 2 with the page size cut to 50, which is the records
50 to 99 again: the loop ends with 150 records of which 50 are there twice, and
the records 100 to 149 are never fetched. -/
theorem shrunk_page_repeats_records :
    paginationLoop (pagedRemote (sampleRecords 0 250)) 150 (loopFuel 150) 0
        ⟨"", "main", "deploy", "prod", 1, 100⟩ [] [] =
      .done (sampleRecords 0 100 ++ sampleRecords 50 50) 2
        [⟨⟨"", "main", "deploy", "prod", 1, 100⟩, .ok (sampleRecords 0 100)⟩,
          ⟨⟨"", "main", "deploy", "prod", 2, 50⟩, .ok (sampleRecords 50 50)⟩] ∧
    (sampleRecords 0 250).take 150 = sampleRecords 0 100 ++ sampleRecords 100 50 ∧
    sampleRecords 0 100 ++ sampleRecords 50 50 ≠ (sampleRecords 0 250).take 150 ∧
    ((sampleRecords 0 100 ++ sampleRecords 50 50).filter
      (fun r => decide (r = sampleRecord 50))).length = 2 ∧
    sampleRecord 100 ∉ sampleRecords 0 100 ++ sampleRecords 50 50 :=
  ⟨rfl, rfl, by decide, by decide, by decide⟩

end Controllers
